import Mathlib

/-!
# HashDictionary (src/hash_dictionary.hpp): a shallow embedding

`HashDictionary<K, V>` is an open-addressed hash table with linear probing and
tombstones.  The embedding keeps the two fields of the class (`table`,
`elementCount`) and the four fields of `Entry`, and translates every member
function used below line by line.

Modelling conventions.

* `std::hash<K>` is a parameter `stdHash : K → Nat`.
* `size_t` counters are `Nat`: `elementCount` never exceeds the number of slots
  of the table, so no wrap-around happens on the paths studied here
  (`elementCount--` is only executed on a Live slot).
* The load-factor test `double(elementCount + 1) / table.size() >= 0.75` is the
  exact rational comparison `3 * size ≤ 4 * (elementCount + 1)`; the two agree
  while the operands are exactly representable as doubles.
* Exceptions are `Except Err`: `tableFull` is the `std::runtime_error` thrown by
  `findPosition`, `keyNotFound` the `std::out_of_range` of the read-only
  `operator[]`.
* `insert` and `resize` call each other.  The recursion is bounded by a fuel
  argument; `outOfFuel` is the result of the model when the bound is hit.  The
  bound used by `insert` is never hit (`insert_fuel`) and a larger one gives the
  same result (`insertFuel_adequate`), on every table that has a slot.
* A default-constructed `Entry` leaves `key` and `value` default-initialised;
  they are `default` here.  No function reads them before checking `isOccupied`.
* For `saveToFile`, `loadFromFile` and `countWordsWithMinRepetitions` the keys
  are byte strings and the values are `int`s: a file is the list of its bytes,
  and the conversions between integers and bytes, and from `int` to `size_t`,
  are explicit (`leBytes`, `intBytes`, `toSizeT`).
-/

set_option linter.unusedSectionVars false
set_option linter.unusedVariables false

namespace Lab4

/-- The errors a member function can raise. -/
inductive Err where
  | tableFull
  | keyNotFound
  | outOfFuel
deriving DecidableEq, Repr

/-- `struct Entry`. -/
structure Entry (K V : Type) where
  key : K
  value : V
  isOccupied : Bool
  isDeleted : Bool
deriving DecidableEq, Repr

/-- `class HashDictionary`: the slot vector and the live-element counter. -/
structure HashDictionary (K V : Type) where
  table : List (Entry K V)
  elementCount : Nat
deriving DecidableEq, Repr

/-- `INITIAL_SIZE`. -/
def INITIAL_SIZE : Nat := 16

section Model

variable {K V : Type} [DecidableEq K] [DecidableEq V] [Inhabited K] [Inhabited V]

/-- `Entry()`: neither occupied nor deleted. -/
def Entry.empty : Entry K V :=
  { key := default, value := default, isOccupied := false, isDeleted := false }

/-- The test `entry.isOccupied && !entry.isDeleted` (a Live slot). -/
def Entry.live (e : Entry K V) : Bool := e.isOccupied && !e.isDeleted

namespace HashDictionary

/-- `table[pos]`. -/
def slot (d : HashDictionary K V) (pos : Nat) : Entry K V :=
  d.table.getD pos Entry.empty

/-- `HashDictionary()`: `table(INITIAL_SIZE), elementCount(0)`. -/
def new : HashDictionary K V :=
  { table := List.replicate INITIAL_SIZE Entry.empty, elementCount := 0 }

/-- `clear()`. -/
def clear (_d : HashDictionary K V) : HashDictionary K V :=
  { table := List.replicate INITIAL_SIZE Entry.empty, elementCount := 0 }

/-- `size()`. -/
def size (d : HashDictionary K V) : Nat := d.elementCount

/-- The copy constructor: `table(other.table), elementCount(other.elementCount)`. -/
def copy (other : HashDictionary K V) : HashDictionary K V :=
  { table := other.table, elementCount := other.elementCount }

/-- `hash(key)`: `std::hash<K>{}(key) % table.size()`. -/
def hash (stdHash : K → Nat) (d : HashDictionary K V) (key : K) : Nat :=
  stdHash key % d.table.length

/-- The exit test of the probe loop of `findPosition`:
`!table[pos].isOccupied || (table[pos].isOccupied && !table[pos].isDeleted && table[pos].key == key)`. -/
def stopAt (e : Entry K V) (key : K) : Bool :=
  !e.isOccupied || (e.isOccupied && !e.isDeleted && decide (e.key = key))

/-- The `do … while (pos != originalPos)` loop of `findPosition`.  The first
argument bounds the number of iterations; `findPosition` passes `table.size()`,
which the loop cannot exceed because `pos` is back at `originalPos` by then. -/
def probeLoop (d : HashDictionary K V) (key : K) (originalPos : Nat) :
    Nat → Nat → Except Err Nat
  | 0, _ => .error .outOfFuel
  | n + 1, pos =>
    if stopAt (d.slot pos) key then .ok pos
    else
      let pos1 := (pos + 1) % d.table.length
      if pos1 = originalPos then .error .tableFull
      else probeLoop d key originalPos n pos1

/-- `findPosition(key)`. -/
def findPosition (stdHash : K → Nat) (d : HashDictionary K V) (key : K) : Except Err Nat :=
  probeLoop d key (hash stdHash d key) d.table.length (hash stdHash d key)

/-- The load-factor test at the head of `insert`. -/
def needsResize (d : HashDictionary K V) : Bool :=
  decide (3 * d.table.length ≤ 4 * (d.elementCount + 1))

/-- The part of `insert` after the load-factor test: locate the slot, then
either claim it or overwrite the value. -/
def place (stdHash : K → Nat) (d : HashDictionary K V) (key : K) (value : V) :
    Except Err (HashDictionary K V) :=
  match findPosition stdHash d key with
  | .error e => .error e
  | .ok pos =>
    if !(d.slot pos).isOccupied || (d.slot pos).isDeleted then
      .ok { table := d.table.set pos
              { key := key, value := value, isOccupied := true, isDeleted := false },
            elementCount := d.elementCount + 1 }
    else
      .ok { table := d.table.set pos { d.slot pos with value := value },
            elementCount := d.elementCount }

/-- The loop of `resize`, with the callee `insert` as a parameter: every Live
entry of the old table is inserted into the accumulator. -/
def rehash (ins : HashDictionary K V → K → V → Except Err (HashDictionary K V)) :
    List (Entry K V) → HashDictionary K V → Except Err (HashDictionary K V)
  | [], acc => .ok acc
  | entry :: rest, acc =>
    if entry.isOccupied && !entry.isDeleted then
      match ins acc entry.key entry.value with
      | .error e => .error e
      | .ok acc1 => rehash ins rest acc1
    else rehash ins rest acc

/-- The body of `resize`, with the callee `insert` as a parameter. -/
def resizeWith (ins : HashDictionary K V → K → V → Except Err (HashDictionary K V))
    (d : HashDictionary K V) : Except Err (HashDictionary K V) :=
  rehash ins d.table
    { table := List.replicate (d.table.length * 2) Entry.empty, elementCount := 0 }

/-- `insert(key, value)` with a bound on the depth of the `insert`/`resize`
recursion. -/
def insertFuel (stdHash : K → Nat) :
    Nat → HashDictionary K V → K → V → Except Err (HashDictionary K V)
  | 0, _, _, _ => .error .outOfFuel
  | fuel + 1, d, key, value =>
    if needsResize d then
      match resizeWith (insertFuel stdHash fuel) d with
      | .error e => .error e
      | .ok d1 => place stdHash d1 key value
    else place stdHash d key value

/-- `insert(key, value)`. -/
def insert (stdHash : K → Nat) (d : HashDictionary K V) (key : K) (value : V) :
    Except Err (HashDictionary K V) :=
  insertFuel stdHash 2 d key value

/-- `resize()`. -/
def resize (stdHash : K → Nat) (d : HashDictionary K V) : Except Err (HashDictionary K V) :=
  resizeWith (insertFuel stdHash 1) d

/-- `remove(key)`: the table afterwards and the returned flag. -/
def remove (stdHash : K → Nat) (d : HashDictionary K V) (key : K) :
    Except Err (HashDictionary K V × Bool) :=
  match findPosition stdHash d key with
  | .error e => .error e
  | .ok pos =>
    if (d.slot pos).isOccupied && !(d.slot pos).isDeleted then
      .ok ({ table := d.table.set pos { d.slot pos with isDeleted := true },
             elementCount := d.elementCount - 1 }, true)
    else .ok (d, false)

/-- The mutable `operator[]`: the table afterwards and the index of the slot
whose `value` the returned reference designates. -/
def index (stdHash : K → Nat) (d : HashDictionary K V) (key : K) :
    Except Err (HashDictionary K V × Nat) :=
  match findPosition stdHash d key with
  | .error e => .error e
  | .ok pos =>
    if !(d.slot pos).isOccupied || (d.slot pos).isDeleted then
      match insert stdHash d key default with
      | .error e => .error e
      | .ok d1 =>
        match findPosition stdHash d1 key with
        | .error e => .error e
        | .ok pos1 => .ok (d1, pos1)
    else .ok (d, pos)

/-- A store through the reference returned by the mutable `operator[]`
(`dict[key] = value`): `table[pos].value = value`. -/
def assign (d : HashDictionary K V) (pos : Nat) (value : V) : HashDictionary K V :=
  { table := d.table.set pos { d.slot pos with value := value },
    elementCount := d.elementCount }

/-- The read-only `operator[]`. -/
def indexConst (stdHash : K → Nat) (d : HashDictionary K V) (key : K) : Except Err V :=
  match findPosition stdHash d key with
  | .error e => .error e
  | .ok pos =>
    if !(d.slot pos).isOccupied || (d.slot pos).isDeleted then .error .keyNotFound
    else .ok (d.slot pos).value

/-- `contains(key)`. -/
def contains (stdHash : K → Nat) (d : HashDictionary K V) (key : K) : Except Err Bool :=
  match findPosition stdHash d key with
  | .error e => .error e
  | .ok pos => .ok ((d.slot pos).isOccupied && !(d.slot pos).isDeleted)

/-- The loop of `operator&&`. -/
def intersectionLoop (stdHash : K → Nat) (other : HashDictionary K V) :
    List (Entry K V) → HashDictionary K V → Except Err (HashDictionary K V)
  | [], result => .ok result
  | entry :: rest, result =>
    if entry.isOccupied && !entry.isDeleted then
      match contains stdHash other entry.key with
      | .error e => .error e
      | .ok true =>
        match insert stdHash result entry.key entry.value with
        | .error e => .error e
        | .ok result1 => intersectionLoop stdHash other rest result1
      | .ok false => intersectionLoop stdHash other rest result
    else intersectionLoop stdHash other rest result

/-- `operator&&`. -/
def intersection (stdHash : K → Nat) (d other : HashDictionary K V) :
    Except Err (HashDictionary K V) :=
  intersectionLoop stdHash other d.table new

/-- The loop of `operator==`.  Only `std::out_of_range` is caught. -/
def equalsLoop (stdHash : K → Nat) (other : HashDictionary K V) :
    List (Entry K V) → Except Err Bool
  | [] => .ok true
  | entry :: rest =>
    if entry.isOccupied && !entry.isDeleted then
      match contains stdHash other entry.key with
      | .error e => .error e
      | .ok false => .ok false
      | .ok true =>
        match indexConst stdHash other entry.key with
        | .error .keyNotFound => .ok false
        | .error e => .error e
        | .ok v => if v ≠ entry.value then .ok false else equalsLoop stdHash other rest
    else equalsLoop stdHash other rest

/-- `operator==`. -/
def equals (stdHash : K → Nat) (d other : HashDictionary K V) : Except Err Bool :=
  if d.elementCount ≠ other.elementCount then .ok false
  else equalsLoop stdHash other d.table

end HashDictionary

/-! ## Vocabulary of the properties -/

/-- `key` is Live with value `value`: some slot of the table is occupied, not
deleted, and holds the pair. -/
def Maps (d : HashDictionary K V) (key : K) (value : V) : Prop :=
  ∃ p, p < d.table.length ∧ (HashDictionary.slot d p).live = true ∧
    (HashDictionary.slot d p).key = key ∧ (HashDictionary.slot d p).value = value

/-- `key` is Live: some slot is occupied, not deleted, and holds `key`. -/
def KeyLive (d : HashDictionary K V) (key : K) : Prop := ∃ v, Maps d key v

/-- No slot is a Tombstone. -/
def NoTomb (d : HashDictionary K V) : Prop :=
  ∀ p, p < d.table.length → (HashDictionary.slot d p).isOccupied = true →
    (HashDictionary.slot d p).isDeleted = false

/-- The representation invariant: the table is not empty, `elementCount` is the
number of Live slots (I1), and the probe for the key of a Live slot ends at that
slot (which gives I3: a key is Live in at most one slot). -/
structure Inv (stdHash : K → Nat) (d : HashDictionary K V) : Prop where
  size_pos : 0 < d.table.length
  count_live : d.elementCount = d.table.countP Entry.live
  chain : ∀ p, p < d.table.length → (HashDictionary.slot d p).live = true →
    HashDictionary.findPosition stdHash d (HashDictionary.slot d p).key = .ok p

/-- Two entries are not both Live with the same key. -/
def DistinctLive (a b : Entry K V) : Prop := a.live = true → b.live = true → a.key ≠ b.key

/-- The table `std::vector<Entry>(n)` with a zero counter. -/
def blank (n : Nat) : HashDictionary K V :=
  { table := List.replicate n Entry.empty, elementCount := 0 }

/-- `key` is Live, as a test over the slots. -/
def isLive (d : HashDictionary K V) (key : K) : Bool :=
  d.table.any (fun e => e.live && decide (e.key = key))

/-- The tables a program can hold: a freshly constructed table, and the result
of every public mutator on such a table when it returns.  (The copy
constructor, `operator&&` and `loadFromFile` build their result from these.) -/
inductive Reachable (stdHash : K → Nat) : HashDictionary K V → Prop where
  | fresh : Reachable stdHash HashDictionary.new
  | insert {d d1 : HashDictionary K V} {key : K} {value : V} :
      Reachable stdHash d → HashDictionary.insert stdHash d key value = .ok d1 →
      Reachable stdHash d1
  | remove {d d1 : HashDictionary K V} {key : K} {b : Bool} :
      Reachable stdHash d → HashDictionary.remove stdHash d key = .ok (d1, b) →
      Reachable stdHash d1
  | index {d d1 : HashDictionary K V} {key : K} {pos : Nat} :
      Reachable stdHash d → HashDictionary.index stdHash d key = .ok (d1, pos) →
      Reachable stdHash d1
  | assign {d d1 : HashDictionary K V} {key : K} {pos : Nat} (value : V) :
      Reachable stdHash d → HashDictionary.index stdHash d key = .ok (d1, pos) →
      Reachable stdHash (HashDictionary.assign d1 pos value)
  | clear {d : HashDictionary K V} :
      Reachable stdHash d → Reachable stdHash (HashDictionary.clear d)

/-- A sequence of `insert` calls, stopping at the first one that throws. -/
def insertAll (stdHash : K → Nat) :
    HashDictionary K V → List (K × V) → Except Err (HashDictionary K V)
  | d, [] => .ok d
  | d, (key, value) :: rest =>
    match HashDictionary.insert stdHash d key value with
    | .error e => .error e
    | .ok d1 => insertAll stdHash d1 rest

end Model

/-! ## `HashDictionary<std::string, int>`: persistence and the aggregate query

A `std::string` key is its sequence of bytes and an `int` value is an `Int`
(between `-2^31` and `2^31 - 1` in the program).  A file is the sequence of its
bytes.  `size_t` is 8 bytes wide, `int` is 4 bytes wide, and the object
representation written by `file.write(reinterpret_cast<const char*>(&x), sizeof(x))`
is little-endian, two's complement. -/

/-- A `char`. -/
abbrev Byte := Fin 256

/-- The `w` bytes of the object representation of an unsigned integer. -/
def leBytes : Nat → Nat → List Byte
  | 0, _ => []
  | w + 1, n => ⟨n % 256, Nat.mod_lt _ (by decide)⟩ :: leBytes w (n / 256)

/-- The unsigned integer whose object representation is the given bytes. -/
def ofLeBytes : List Byte → Nat
  | [] => 0
  | b :: bs => b.val + 256 * ofLeBytes bs

/-- The 4 bytes of the object representation of an `int`. -/
def intBytes (v : Int) : List Byte := leBytes 4 (v % 2 ^ 32).toNat

/-- The `int` whose object representation is the given 4 bytes. -/
def ofIntBytes (bs : List Byte) : Int :=
  if ofLeBytes bs < 2 ^ 31 then (ofLeBytes bs : Int) else (ofLeBytes bs : Int) - 2 ^ 32

/-- The loop of `saveToFile`: the bytes written for the slots. -/
def saveLoop : List (Entry (List Byte) Int) → List Byte
  | [] => []
  | entry :: rest =>
    if entry.isOccupied && !entry.isDeleted then
      leBytes 8 entry.key.length ++ entry.key ++ intBytes entry.value ++ saveLoop rest
    else saveLoop rest

/-- `saveToFile(filename)`, for a file that can be opened: the bytes of the
file afterwards. -/
def saveToFile (d : HashDictionary (List Byte) Int) : List Byte :=
  leBytes 8 d.elementCount ++ saveLoop d.table

/-- The outcomes of `loadFromFile` other than a table: `truncated` stands for a
`file.read` that meets the end of the file (the program then goes on with an
indeterminate value); `raised` is an exception of `insert`. -/
inductive LoadErr where
  | truncated
  | raised (e : Err)
deriving DecidableEq, Repr

/-- `file.read(buffer, n)`: the `n` bytes read and the rest of the file. -/
def readBytes (n : Nat) (file : List Byte) : Option (List Byte × List Byte) :=
  if n ≤ file.length then some (file.take n, file.drop n) else none

/-- The loop `for (size_t i = 0; i < count; ++i)` of `loadFromFile`; the first
argument is the number of iterations left. -/
def loadLoop (stdHash : List Byte → Nat) :
    Nat → List Byte → HashDictionary (List Byte) Int →
      Except LoadErr (HashDictionary (List Byte) Int)
  | 0, _, d => .ok d
  | n + 1, file, d =>
    match readBytes 8 file with
    | none => .error .truncated
    | some (keySize, file1) =>
      match readBytes (ofLeBytes keySize) file1 with
      | none => .error .truncated
      | some (key, file2) =>
        match readBytes 4 file2 with
        | none => .error .truncated
        | some (value, file3) =>
          match HashDictionary.insert stdHash d key (ofIntBytes value) with
          | .error e => .error (.raised e)
          | .ok d1 => loadLoop stdHash n file3 d1

/-- `loadFromFile(filename)`, for a file that can be opened and holds the given
bytes. -/
def loadFromFile (stdHash : List Byte → Nat) (d : HashDictionary (List Byte) Int)
    (file : List Byte) : Except LoadErr (HashDictionary (List Byte) Int) :=
  match readBytes 8 file with
  | none => .error .truncated
  | some (count, rest) => loadLoop stdHash (ofLeBytes count) rest (HashDictionary.clear d)

/-- The conversion of an `int` to `size_t` that the comparison
`entry.value >= minRepetitions` applies to its left operand. -/
def toSizeT (v : Int) : Nat := (v % 2 ^ 64).toNat

/-- The loop of `countWordsWithMinRepetitions`. -/
def countLoop {K : Type} (minRepetitions : Nat) : List (Entry K Int) → Nat → Nat
  | [], count => count
  | entry :: rest, count =>
    if entry.isOccupied && !entry.isDeleted && decide (toSizeT entry.value ≥ minRepetitions) then
      countLoop minRepetitions rest (count + 1)
    else countLoop minRepetitions rest count

/-- `countWordsWithMinRepetitions(minRepetitions)` on `int` values. -/
def countWordsWithMinRepetitions {K : Type} (d : HashDictionary K Int)
    (minRepetitions : Nat) : Nat :=
  countLoop minRepetitions d.table 0

/-- The number of Live entries whose value is at least `t` in the order of the
integers. -/
def countAtLeast {K : Type} (d : HashDictionary K Int) (t : Nat) : Nat :=
  d.table.countP (fun e => e.live && decide ((t : Int) ≤ e.value))

/-- The Live pairs of a table, in slot order. -/
def livePairs {K V : Type} (d : HashDictionary K V) : List (K × V) :=
  (d.table.filter Entry.live).map (fun e => (e.key, e.value))

/-- The test for a Tombstone: occupied and deleted. -/
def Entry.tomb {K V : Type} (e : Entry K V) : Bool := e.isOccupied && e.isDeleted

/-! ## Concrete tables -/

/-- `std::hash` on an unsigned integer key returns the key (libstdc++). -/
def idHash : Nat → Nat := fun k => k

/-- The slot left behind by `insert(1, 0); remove(1)`. -/
def tombstone : Entry Nat Nat :=
  { key := 1, value := 0, isOccupied := true, isDeleted := true }

/-- The call sequence `insert(1, 0); remove(1)` repeated `n` times. -/
def churn : Nat → HashDictionary Nat Nat → Except Err (HashDictionary Nat Nat)
  | 0, d => .ok d
  | n + 1, d =>
    match HashDictionary.insert idHash d 1 0 with
    | .error e => .error e
    | .ok d1 =>
      match HashDictionary.remove idHash d1 1 with
      | .error e => .error e
      | .ok (d2, _) => churn n d2

/-- The table after 16 rounds of `insert(1, 0); remove(1)` on a fresh table:
every slot is a Tombstone. -/
def saturated : HashDictionary Nat Nat :=
  { table := List.replicate 16 tombstone, elementCount := 0 }

/-- The table after 15 rounds of `insert(1, 0); remove(1)` on a fresh table:
slot 0 is Empty, the others are Tombstones. -/
def nearlySaturated : HashDictionary Nat Nat :=
  { table := Entry.empty :: List.replicate 15 tombstone, elementCount := 0 }

/-- The table `nearlySaturated` after `insert(1, 7)`. -/
def lastSlotTaken : HashDictionary Nat Nat :=
  { table := { key := 1, value := 7, isOccupied := true, isDeleted := false } ::
      List.replicate 15 tombstone,
    elementCount := 1 }

/-- The table `lastSlotTaken` after `remove(1)`. -/
def lastSlotFreed : HashDictionary Nat Nat :=
  { table := { key := 1, value := 7, isOccupied := true, isDeleted := true } ::
      List.replicate 15 tombstone,
    elementCount := 0 }

/-- A fresh table after `insert(2, 0)`. -/
def singleKey : HashDictionary Nat Nat :=
  { table := [Entry.empty, Entry.empty,
      { key := 2, value := 0, isOccupied := true, isDeleted := false }] ++
      List.replicate 13 Entry.empty,
    elementCount := 1 }

/-- A fresh table after `insert(1, 9)`. -/
def oneNine : HashDictionary Nat Nat :=
  { table := Entry.empty :: { key := 1, value := 9, isOccupied := true, isDeleted := false } ::
      List.replicate 14 Entry.empty,
    elementCount := 1 }

/-- A fresh table after `insert(1, 7)`. -/
def oneSeven : HashDictionary Nat Nat :=
  { table := Entry.empty :: { key := 1, value := 7, isOccupied := true, isDeleted := false } ::
      List.replicate 14 Entry.empty,
    elementCount := 1 }

/-- Thirteen `insert` calls with keys that share the bucket 1 of a 16-slot
table; the thirteenth crosses the load factor. -/
def collidingInserts : List (Nat × Nat) :=
  [(1, 0), (17, 1), (33, 2), (49, 3), (65, 4), (81, 5), (97, 6), (113, 7), (129, 8),
   (145, 9), (161, 10), (177, 11), (1, 12)]

/-- Eleven `insert` calls with keys that share the bucket 1 of a 16-slot
table; a twelfth new key crosses the load factor. -/
def elevenInserts : List (Nat × Nat) :=
  [(1, 0), (17, 1), (33, 2), (49, 3), (65, 4), (81, 5), (97, 6), (113, 7), (129, 8),
   (145, 9), (161, 10)]

/-- A hash function on byte strings, standing for `std::hash<std::string>`
(whose values are implementation-defined). -/
def byteHash : List Byte → Nat := fun s => s.foldl (fun h b => 31 * h + b.val) 0

/-- The string "hello". -/
def hello : List Byte := [104, 101, 108, 108, 111]

/-- The string "world". -/
def world : List Byte := [119, 111, 114, 108, 100]

/-- The string "test". -/
def test : List Byte := [116, 101, 115, 116]

/-- The calls `insert("hello", 3); insert("world", 2); insert("test", 1)`. -/
def wordCounts : List (List Byte × Int) := [(hello, 3), (world, 2), (test, 1)]

/-- A fresh table after `insert("hello", -1)`; `byteHash hello % 16 = 2`. -/
def negativeWord : HashDictionary (List Byte) Int :=
  { table := [Entry.empty, Entry.empty,
      { key := hello, value := -1, isOccupied := true, isDeleted := false }] ++
      List.replicate 13 Entry.empty,
    elementCount := 1 }

/-- A fresh table after `insert("hello", 3)`. -/
def wordsOne : HashDictionary (List Byte) Int :=
  { table := [Entry.empty, Entry.empty,
      { key := hello, value := (3 : Int), isOccupied := true, isDeleted := false }] ++
      List.replicate 13 Entry.empty,
    elementCount := 1 }

/-- The table `wordsOne` after `insert("world", -2)`: the two keys share the
bucket 2. -/
def wordsTwo : HashDictionary (List Byte) Int :=
  { table := [Entry.empty, Entry.empty,
      { key := hello, value := (3 : Int), isOccupied := true, isDeleted := false },
      { key := world, value := (-2 : Int), isOccupied := true, isDeleted := false }] ++
      List.replicate 12 Entry.empty,
    elementCount := 2 }

/-- The table `wordsTwo` after `remove("hello")`: slot 2 is a Tombstone and
slot 3 is Live. -/
def wordsAfterRemove : HashDictionary (List Byte) Int :=
  { table := [Entry.empty, Entry.empty,
      { key := hello, value := (3 : Int), isOccupied := true, isDeleted := true },
      { key := world, value := (-2 : Int), isOccupied := true, isDeleted := false }] ++
      List.replicate 12 Entry.empty,
    elementCount := 1 }

/-- The call sequence `insert(key, value); remove(key)` repeated `n` times, for
any key type and hash function. -/
def churnWith {K V : Type} [DecidableEq K] [DecidableEq V] [Inhabited K] [Inhabited V]
    (stdHash : K → Nat) (key : K) (value : V) :
    Nat → HashDictionary K V → Except Err (HashDictionary K V)
  | 0, d => .ok d
  | n + 1, d =>
    match HashDictionary.insert stdHash d key value with
    | .error e => .error e
    | .ok d1 =>
      match HashDictionary.remove stdHash d1 key with
      | .error e => .error e
      | .ok (d2, _) => churnWith stdHash key value n d2

/-! ## Lists and cyclic positions -/

section Aux

theorem getD_set_self {α : Type} (l : List α) (p : Nat) (e dflt : α) (h : p < l.length) :
    (l.set p e).getD p dflt = e := by
  simp [List.getD_eq_getElem?_getD, h]

theorem getD_set_other {α : Type} (l : List α) (p q : Nat) (e dflt : α) (h : p ≠ q) :
    (l.set p e).getD q dflt = l.getD q dflt := by
  simp [List.getD_eq_getElem?_getD, List.getElem?_set_ne h]

theorem countP_set_add {α : Type} (f : α → Bool) (dflt : α) (l : List α) :
    ∀ (p : Nat) (e : α), p < l.length →
      (l.set p e).countP f + (if f (l.getD p dflt) then 1 else 0)
        = l.countP f + (if f e then 1 else 0) := by
  induction l with
  | nil => intro p e h; simp at h
  | cons a t ih =>
    intro p e h
    cases p with
    | zero =>
      simp only [List.set_cons_zero, List.countP_cons, List.getD_cons_zero]
      omega
    | succ p =>
      have h1 : p < t.length := by simpa using h
      have := ih p e h1
      simp only [List.set_cons_succ, List.countP_cons, List.getD_cons_succ]
      omega

theorem mem_iff_getD {α : Type} (dflt : α) (l : List α) (a : α) :
    a ∈ l ↔ ∃ p, p < l.length ∧ l.getD p dflt = a := by
  constructor
  · intro h
    obtain ⟨p, hp, rfl⟩ := List.getElem_of_mem h
    exact ⟨p, hp, by simp [List.getD_eq_getElem?_getD, hp]⟩
  · rintro ⟨p, hp, rfl⟩
    simp [List.getD_eq_getElem?_getD, hp]

theorem exists_not_of_countP_lt {α : Type} (f : α → Bool) (l : List α)
    (h : l.countP f < l.length) : ∃ a ∈ l, f a = false := by
  by_contra hc
  push_neg at hc
  have : l.countP f = l.length := by
    rw [List.countP_eq_length]
    intro a ha
    have := hc a ha
    simpa using this
  omega

theorem add_mod_ne_self (c o t : Nat) (ho : o < c) (ht0 : 0 < t) (ht : t < c) :
    (o + t) % c ≠ o := by
  by_cases h : o + t < c
  · rw [Nat.mod_eq_of_lt h]; omega
  · have h2 : o + t = (o + t - c) + c := by omega
    rw [h2, Nat.add_mod_right, Nat.mod_eq_of_lt (by omega)]
    omega

theorem exists_offset (c o p : Nat) (ho : o < c) (hp : p < c) :
    ∃ i, i < c ∧ (o + i) % c = p := by
  by_cases h : o ≤ p
  · exact ⟨p - o, by omega, by rw [show o + (p - o) = p by omega, Nat.mod_eq_of_lt hp]⟩
  · refine ⟨p + c - o, by omega, ?_⟩
    rw [show o + (p + c - o) = p + c by omega, Nat.add_mod_right, Nat.mod_eq_of_lt hp]

theorem succ_mod_step (c o i : Nat) : ((o + i) % c + 1) % c = (o + (i + 1)) % c := by
  rw [← Nat.add_assoc, Nat.add_mod (o + i) 1 c]
  by_cases hc : c = 0
  · subst hc; simp
  · simp

end Aux

/-! ## The probe loop -/

section Probe

variable {K V : Type} [DecidableEq K] [DecidableEq V] [Inhabited K] [Inhabited V]

open HashDictionary

theorem slot_set_self (d : HashDictionary K V) (p n : Nat) (e : Entry K V)
    (h : p < d.table.length) :
    slot { table := d.table.set p e, elementCount := n } p = e :=
  getD_set_self d.table p e Entry.empty h

theorem slot_set_other (d : HashDictionary K V) (p q n : Nat) (e : Entry K V) (h : p ≠ q) :
    slot { table := d.table.set p e, elementCount := n } q = slot d q :=
  getD_set_other d.table p q e Entry.empty h

/-- The slot returned by the probe loop passes the exit test. -/
theorem probeLoop_stop (d : HashDictionary K V) (key : K) (o : Nat) :
    ∀ (n x q : Nat), probeLoop d key o n x = .ok q → stopAt (d.slot q) key = true := by
  intro n
  induction n with
  | zero => intro x q h; simp [probeLoop] at h
  | succ n ih =>
    intro x q h
    unfold probeLoop at h
    by_cases hs : stopAt (d.slot x) key = true
    · simp only [hs, if_true] at h
      cases h
      exact hs
    · simp only [hs] at h
      by_cases hw : (x + 1) % d.table.length = o
      · simp [hw] at h
      · simp only [hw, if_false] at h
        exact ih _ _ h

/-- The slot returned by the probe loop is inside the table. -/
theorem probeLoop_lt (d : HashDictionary K V) (key : K) (o : Nat)
    (hlen : 0 < d.table.length) :
    ∀ (n x q : Nat), x < d.table.length → probeLoop d key o n x = .ok q →
      q < d.table.length := by
  intro n
  induction n with
  | zero => intro x q _ h; simp [probeLoop] at h
  | succ n ih =>
    intro x q hx h
    unfold probeLoop at h
    by_cases hs : stopAt (d.slot x) key = true
    · simp only [hs, if_true] at h
      cases h
      exact hx
    · simp only [hs] at h
      by_cases hw : (x + 1) % d.table.length = o
      · simp [hw] at h
      · simp only [hw, if_false] at h
        exact ih _ _ (Nat.mod_lt _ hlen) h

/-- The probe loop reads the table only through the exit test. -/
theorem probeLoop_ext (d d1 : HashDictionary K V) (key : K) (o : Nat)
    (hlen : d1.table.length = d.table.length)
    (hst : ∀ y, stopAt (d1.slot y) key = stopAt (d.slot y) key) :
    ∀ (n x : Nat), probeLoop d1 key o n x = probeLoop d key o n x := by
  intro n
  induction n with
  | zero => intro x; rfl
  | succ n ih =>
    intro x
    unfold probeLoop
    rw [hst x, hlen]
    by_cases hs : stopAt (d.slot x) key = true
    · simp [hs]
    · simp only [hs]
      by_cases hw : (x + 1) % d.table.length = o
      · simp [hw]
      · simp only [hw, if_false]
        exact ih _

/-- A successful probe is not disturbed by changes to the table that keep the
answer slot an exit and turn no skipped slot into an exit. -/
theorem probeLoop_stable (d d1 : HashDictionary K V) (key : K) (o q : Nat)
    (hlen : d1.table.length = d.table.length)
    (hq : stopAt (d1.slot q) key = true)
    (hst : ∀ y, y ≠ q → stopAt (d.slot y) key = false → stopAt (d1.slot y) key = false) :
    ∀ (n x : Nat), probeLoop d key o n x = .ok q → probeLoop d1 key o n x = .ok q := by
  intro n
  induction n with
  | zero => intro x h; simp [probeLoop] at h
  | succ n ih =>
    intro x h
    have hres := probeLoop_stop d key o _ _ _ h
    unfold probeLoop at h
    unfold probeLoop
    by_cases hs : stopAt (d.slot x) key = true
    · simp only [hs, if_true] at h
      cases h
      simp [hq]
    · simp only [hs] at h
      have hxq : x ≠ q := by
        intro hxq
        rw [hxq] at hs
        exact hs hres
      have hs1 : stopAt (d1.slot x) key = false := hst x hxq (by simpa using hs)
      rw [hs1, hlen]
      by_cases hw : (x + 1) % d.table.length = o
      · simp [hw] at h
      · simp only [hw, if_false] at h
        simp only [hw, if_false]
        exact ih _ h

/-- Starting at offset `i` of the probe order with enough iterations left, the
loop returns an exit at offset `i + m` when no earlier offset is one. -/
theorem probeLoop_found (d : HashDictionary K V) (key : K) (o : Nat)
    (ho : o < d.table.length) :
    ∀ (m i n : Nat), i + m < d.table.length → m < n →
      (∀ j, i ≤ j → j < i + m → stopAt (d.slot ((o + j) % d.table.length)) key = false) →
      stopAt (d.slot ((o + (i + m)) % d.table.length)) key = true →
      probeLoop d key o n ((o + i) % d.table.length)
        = .ok ((o + (i + m)) % d.table.length) := by
  intro m
  induction m with
  | zero =>
    intro i n _ hn _ hstop
    obtain ⟨n, rfl⟩ : ∃ k, n = k + 1 := ⟨n - 1, by omega⟩
    unfold probeLoop
    simp only [Nat.add_zero] at hstop ⊢
    simp [hstop]
  | succ m ih =>
    intro i n him hn hskip hstop
    obtain ⟨n, rfl⟩ : ∃ k, n = k + 1 := ⟨n - 1, by omega⟩
    unfold probeLoop
    have h0 := hskip i (Nat.le_refl _) (by omega)
    rw [h0, succ_mod_step]
    have hne : (o + (i + 1)) % d.table.length ≠ o :=
      add_mod_ne_self _ _ _ ho (by omega) (by omega)
    simp only [Bool.false_eq_true, if_false, hne]
    have := ih (i + 1) n (by omega) (by omega)
      (fun j hj1 hj2 => hskip j (by omega) (by omega))
      (by rw [show i + 1 + m = i + (m + 1) by omega]; exact hstop)
    rw [this, show i + 1 + m = i + (m + 1) by omega]

/-- When some slot passes the exit test, the probe loop started at
`originalPos` with `table.size()` iterations returns a slot. -/
theorem probeLoop_ok_of_exit (d : HashDictionary K V) (key : K) (o p : Nat)
    (ho : o < d.table.length) (hp : p < d.table.length)
    (hstop : stopAt (d.slot p) key = true) :
    ∃ q, probeLoop d key o d.table.length o = .ok q := by
  obtain ⟨i, hi, hip⟩ := exists_offset d.table.length o p ho hp
  have hex : ∃ m, m < d.table.length ∧
      stopAt (d.slot ((o + m) % d.table.length)) key = true := ⟨i, hi, by rw [hip]; exact hstop⟩
  classical
  let m := Nat.find hex
  have hm : m < d.table.length ∧ stopAt (d.slot ((o + m) % d.table.length)) key = true :=
    Nat.find_spec hex
  have hmin : ∀ j, j < m → stopAt (d.slot ((o + j) % d.table.length)) key = false := by
    intro j hj
    have := Nat.find_min hex hj
    simp only [not_and, Bool.not_eq_true] at this
    exact this (by omega)
  have := probeLoop_found d key o ho m 0 d.table.length (by omega) hm.1
    (fun j _ hj => hmin j (by omega)) (by simpa using hm.2)
  refine ⟨(o + m) % d.table.length, ?_⟩
  simpa [Nat.mod_eq_of_lt ho] using this

end Probe

/-! ## Live keys and the representation invariant -/

section Invariant

variable {K V : Type} [DecidableEq K] [DecidableEq V] [Inhabited K] [Inhabited V]

open HashDictionary

variable (stdHash : K → Nat)

theorem stopAt_iff (e : Entry K V) (key : K) :
    stopAt e key = true ↔ e.isOccupied = false ∨ (e.live = true ∧ e.key = key) := by
  unfold stopAt Entry.live
  cases e.isOccupied <;> cases e.isDeleted <;> simp

theorem stopAt_eq_false_iff (e : Entry K V) (key : K) :
    stopAt e key = false ↔ e.isOccupied = true ∧ (e.live = true → e.key ≠ key) := by
  unfold stopAt Entry.live
  cases e.isOccupied <;> cases e.isDeleted <;> simp

theorem findPosition_stop (d : HashDictionary K V) (key : K) (q : Nat)
    (h : findPosition stdHash d key = .ok q) : stopAt (d.slot q) key = true :=
  probeLoop_stop d key _ _ _ _ h

theorem findPosition_lt (d : HashDictionary K V) (key : K) (q : Nat)
    (hlen : 0 < d.table.length) (h : findPosition stdHash d key = .ok q) :
    q < d.table.length :=
  probeLoop_lt d key _ hlen _ _ _ (Nat.mod_lt _ hlen) h

theorem findPosition_ext (d d1 : HashDictionary K V) (key : K)
    (hlen : d1.table.length = d.table.length)
    (hst : ∀ y, stopAt (d1.slot y) key = stopAt (d.slot y) key) :
    findPosition stdHash d1 key = findPosition stdHash d key := by
  unfold findPosition HashDictionary.hash
  rw [hlen]
  exact probeLoop_ext d d1 key _ hlen hst _ _

theorem findPosition_stable (d d1 : HashDictionary K V) (key : K) (q : Nat)
    (hlen : d1.table.length = d.table.length)
    (h : findPosition stdHash d key = .ok q)
    (hq : stopAt (d1.slot q) key = true)
    (hst : ∀ y, y ≠ q → stopAt (d.slot y) key = false → stopAt (d1.slot y) key = false) :
    findPosition stdHash d1 key = .ok q := by
  unfold findPosition HashDictionary.hash at h ⊢
  rw [hlen]
  exact probeLoop_stable d d1 key _ q hlen hq hst _ _ h

/-- A slot without the occupied flag makes every probe succeed. -/
theorem findPosition_ok_of_empty (d : HashDictionary K V) (key : K) (p : Nat)
    (hp : p < d.table.length) (he : (d.slot p).isOccupied = false) :
    ∃ q, findPosition stdHash d key = .ok q := by
  have hlen : 0 < d.table.length := by omega
  exact probeLoop_ok_of_exit d key _ p (Nat.mod_lt _ hlen) hp
    ((stopAt_iff _ _).2 (Or.inl he))

/-- Invariant I3: a key is Live in at most one slot. -/
theorem Inv.unique {d : HashDictionary K V} (hI : Inv stdHash d) {p q : Nat}
    (hp : p < d.table.length) (hq : q < d.table.length)
    (hlp : (d.slot p).live = true) (hlq : (d.slot q).live = true)
    (hk : (d.slot p).key = (d.slot q).key) : p = q := by
  have h1 := hI.chain p hp hlp
  have h2 := hI.chain q hq hlq
  rw [hk, h2] at h1
  injection h1 with h1
  exact h1.symm

theorem Inv.find_of_maps {d : HashDictionary K V} (hI : Inv stdHash d) {key : K} {value : V}
    (hm : Maps d key value) :
    ∃ p, findPosition stdHash d key = .ok p ∧ p < d.table.length ∧
      (d.slot p).live = true ∧ (d.slot p).key = key ∧ (d.slot p).value = value := by
  obtain ⟨p, hp, hl, hk, hv⟩ := hm
  refine ⟨p, ?_, hp, hl, hk, hv⟩
  have := hI.chain p hp hl
  rwa [hk] at this

/-- A Live key has one value. -/
theorem Inv.maps_unique {d : HashDictionary K V} (hI : Inv stdHash d) {key : K} {v w : V}
    (h1 : Maps d key v) (h2 : Maps d key w) : v = w := by
  obtain ⟨p, hp, hlp, hkp, hvp⟩ := h1
  obtain ⟨q, hq, hlq, hkq, hvq⟩ := h2
  have := hI.unique stdHash hp hq hlp hlq (by rw [hkp, hkq])
  subst this
  rw [← hvp, ← hvq]

theorem live_isOccupied {e : Entry K V} (h : e.live = true) : e.isOccupied = true := by
  unfold Entry.live at h
  cases ho : e.isOccupied <;> simp [ho] at h ⊢

theorem live_isDeleted {e : Entry K V} (h : e.live = true) : e.isDeleted = false := by
  unfold Entry.live at h
  cases ho : e.isDeleted <;> simp [ho] at h ⊢

/-- Under the invariant, `contains` and the read-only `operator[]` find every
Live key. -/
theorem Inv.lookup_of_maps {d : HashDictionary K V} (hI : Inv stdHash d) {key : K} {value : V}
    (hm : Maps d key value) :
    contains stdHash d key = .ok true ∧ indexConst stdHash d key = .ok value := by
  obtain ⟨p, hf, _, hl, _, hv⟩ := hI.find_of_maps stdHash hm
  have ho := live_isOccupied hl
  have hd := live_isDeleted hl
  unfold contains indexConst
  simp [hf, ho, hd, hv]

/-- What `contains` returning `true` means. -/
theorem maps_of_contains {d : HashDictionary K V} (hlen : 0 < d.table.length) {key : K}
    (h : contains stdHash d key = .ok true) : KeyLive d key := by
  unfold contains at h
  cases hf : findPosition stdHash d key with
  | error e => simp [hf] at h
  | ok p =>
    simp only [hf] at h
    have hl : (d.slot p).live = true := by
      unfold Entry.live
      injection h
    have hs := (stopAt_iff _ _).1 (findPosition_stop stdHash d key p hf)
    have hp := findPosition_lt stdHash d key p hlen hf
    rcases hs with hs | ⟨_, hk⟩
    · rw [live_isOccupied hl] at hs; cases hs
    · exact ⟨_, p, hp, hl, hk, rfl⟩

/-- What `contains` returning `false` means. -/
theorem Inv.not_live_of_contains {d : HashDictionary K V} (hI : Inv stdHash d) {key : K}
    (h : contains stdHash d key = .ok false) : ¬ KeyLive d key := by
  rintro ⟨v, hm⟩
  rw [(hI.lookup_of_maps stdHash hm).1] at h
  cases h

/-- What the read-only `operator[]` returning a value means. -/
theorem maps_of_indexConst {d : HashDictionary K V} (hlen : 0 < d.table.length) {key : K}
    {value : V} (h : indexConst stdHash d key = .ok value) : Maps d key value := by
  unfold indexConst at h
  cases hf : findPosition stdHash d key with
  | error e => simp [hf] at h
  | ok p =>
    simp only [hf] at h
    have hs := (stopAt_iff _ _).1 (findPosition_stop stdHash d key p hf)
    have hp := findPosition_lt stdHash d key p hlen hf
    by_cases hc : (!(d.slot p).isOccupied || (d.slot p).isDeleted) = true
    · simp [hc] at h
    · rw [if_neg hc] at h
      injection h with h
      rcases hs with hs | ⟨hl, hk⟩
      · simp [hs] at hc
      · exact ⟨p, hp, hl, hk, h⟩

end Invariant

/-! ## The three slot writes -/

section Writes

variable {K V : Type} [DecidableEq K] [DecidableEq V] [Inhabited K] [Inhabited V]
variable (stdHash : K → Nat)

open HashDictionary

/-- The write of `insert` into a slot that is not occupied: the invariant is
kept, the key was not Live, and the Live pairs gain exactly `(key, value)`. -/
theorem claim_spec {d : HashDictionary K V} (hI : Inv stdHash d) {key : K} (value : V)
    {pos : Nat} (hf : findPosition stdHash d key = .ok pos)
    (he : (d.slot pos).isOccupied = false) :
    Inv stdHash { table := d.table.set pos
                    { key := key, value := value, isOccupied := true, isDeleted := false },
                  elementCount := d.elementCount + 1 } ∧
    ¬ KeyLive d key ∧
    ∀ k v, Maps ({ table := d.table.set pos
                    { key := key, value := value, isOccupied := true, isDeleted := false },
                   elementCount := d.elementCount + 1 } : HashDictionary K V) k v ↔
      (k = key ∧ v = value) ∨ (k ≠ key ∧ Maps d k v) := by
  have hp : pos < d.table.length := findPosition_lt stdHash d key pos hI.size_pos hf
  have hnl : (d.slot pos).live = false := by unfold Entry.live; simp [he]
  have hnot : ¬ KeyLive d key := by
    rintro ⟨v, hm⟩
    obtain ⟨q, hq, _, hl, _, _⟩ := hI.find_of_maps stdHash hm
    rw [hf] at hq
    injection hq with hq
    subst hq
    rw [hnl] at hl
    cases hl
  set e : Entry K V := { key := key, value := value, isOccupied := true, isDeleted := false }
    with he_def
  set d1 : HashDictionary K V :=
    { table := d.table.set pos e, elementCount := d.elementCount + 1 } with hd1
  have hlen : d1.table.length = d.table.length := by simp [hd1]
  have hself : d1.slot pos = e := slot_set_self d pos _ e hp
  have hother : ∀ q, pos ≠ q → d1.slot q = d.slot q := fun q hq => slot_set_other d pos q _ e hq
  have helive : e.live = true := rfl
  refine ⟨⟨?_, ?_, ?_⟩, hnot, ?_⟩
  · rw [hlen]; exact hI.size_pos
  · have := countP_set_add Entry.live Entry.empty d.table pos e hp
    have hnl1 : Entry.live (d.table.getD pos Entry.empty) = false := hnl
    rw [hnl1, helive] at this
    simp only [Bool.false_eq_true, if_false, if_true, Nat.add_zero] at this
    show d.elementCount + 1 = (d.table.set pos e).countP Entry.live
    rw [this, hI.count_live]
  · intro p hp1 hl
    rw [hlen] at hp1
    by_cases hpp : pos = p
    · subst hpp
      rw [hself]
      refine findPosition_stable stdHash d d1 key pos hlen hf ?_ ?_
      · rw [hself]; exact (stopAt_iff _ _).2 (Or.inr ⟨helive, rfl⟩)
      · intro y hy hs
        rw [hother y (Ne.symm hy)]; exact hs
    · rw [hother p hpp] at hl ⊢
      refine findPosition_stable stdHash d d1 _ p hlen (hI.chain p hp1 hl) ?_ ?_
      · rw [hother p hpp]; exact (stopAt_iff _ _).2 (Or.inr ⟨hl, rfl⟩)
      · intro y hy hs
        by_cases hyp : pos = y
        · subst hyp
          have := ((stopAt_eq_false_iff _ _).1 hs).1
          rw [he] at this
          cases this
        · rw [hother y hyp]; exact hs
  · intro k v
    constructor
    · rintro ⟨p, hp1, hl, hk, hv⟩
      rw [hlen] at hp1
      by_cases hpp : pos = p
      · subst hpp
        rw [hself] at hk hv
        exact Or.inl ⟨hk.symm, hv.symm⟩
      · rw [hother p hpp] at hl hk hv
        refine Or.inr ⟨?_, p, hp1, hl, hk, hv⟩
        intro hkk
        exact hnot ⟨v, p, hp1, hl, hk.trans hkk, hv⟩
    · rintro (⟨hk, hv⟩ | ⟨_, p, hp1, hl, hk, hv⟩)
      · refine ⟨pos, by rw [hlen]; exact hp, ?_, ?_, ?_⟩
        · rw [hself]; exact helive
        · rw [hself, hk]
        · rw [hself, hv]
      · have hpp : pos ≠ p := by
          intro h
          subst h
          rw [hnl] at hl
          cases hl
        refine ⟨p, by rw [hlen]; exact hp1, ?_, ?_, ?_⟩
        · rw [hother p hpp]; exact hl
        · rw [hother p hpp]; exact hk
        · rw [hother p hpp]; exact hv

/-- The write `table[pos].value = value` into a Live slot: the invariant is
kept and only the value of that slot's key changes. -/
theorem setValue_spec {d : HashDictionary K V} (hI : Inv stdHash d) (value : V)
    {pos : Nat} (hp : pos < d.table.length) (hl : (d.slot pos).live = true) :
    Inv stdHash { table := d.table.set pos { d.slot pos with value := value },
                  elementCount := d.elementCount } ∧
    ∀ k v, Maps ({ table := d.table.set pos { d.slot pos with value := value },
                   elementCount := d.elementCount } : HashDictionary K V) k v ↔
      (k = (d.slot pos).key ∧ v = value) ∨ (k ≠ (d.slot pos).key ∧ Maps d k v) := by
  set e : Entry K V := { d.slot pos with value := value } with he_def
  set d1 : HashDictionary K V :=
    { table := d.table.set pos e, elementCount := d.elementCount } with hd1
  have hlen : d1.table.length = d.table.length := by simp [hd1]
  have hself : d1.slot pos = e := slot_set_self d pos _ e hp
  have hother : ∀ q, pos ≠ q → d1.slot q = d.slot q := fun q hq => slot_set_other d pos q _ e hq
  have helive : e.live = true := hl
  have hstop : ∀ y k, stopAt (d1.slot y) k = stopAt (d.slot y) k := by
    intro y k
    by_cases hy : pos = y
    · subst hy
      rw [hself]
      rfl
    · rw [hother y hy]
  have hfind : ∀ k, findPosition stdHash d1 k = findPosition stdHash d k :=
    fun k => findPosition_ext stdHash d d1 k hlen (fun y => hstop y k)
  refine ⟨⟨?_, ?_, ?_⟩, ?_⟩
  · rw [hlen]; exact hI.size_pos
  · have := countP_set_add Entry.live Entry.empty d.table pos e hp
    have hl1 : Entry.live (d.table.getD pos Entry.empty) = true := hl
    rw [hl1, helive] at this
    show d.elementCount = (d.table.set pos e).countP Entry.live
    rw [hI.count_live]
    omega
  · intro p hp1 hl1
    rw [hlen] at hp1
    rw [hfind]
    by_cases hpp : pos = p
    · subst hpp
      rw [hself]
      exact hI.chain pos hp hl
    · rw [hother p hpp] at hl1 ⊢
      exact hI.chain p hp1 hl1
  · intro k v
    constructor
    · rintro ⟨p, hp1, hl1, hk, hv⟩
      rw [hlen] at hp1
      by_cases hpp : pos = p
      · subst hpp
        rw [hself] at hk hv
        exact Or.inl ⟨hk.symm, hv.symm⟩
      · rw [hother p hpp] at hl1 hk hv
        refine Or.inr ⟨?_, p, hp1, hl1, hk, hv⟩
        intro hkk
        exact hpp (hI.unique stdHash hp hp1 hl hl1 (by rw [hk, hkk]))
    · rintro (⟨hk, hv⟩ | ⟨hne, p, hp1, hl1, hk, hv⟩)
      · refine ⟨pos, by rw [hlen]; exact hp, ?_, ?_, ?_⟩
        · rw [hself]; exact helive
        · rw [hself, hk]
        · rw [hself, hv]
      · have hpp : pos ≠ p := by
          intro h
          subst h
          exact hne hk.symm
        refine ⟨p, by rw [hlen]; exact hp1, ?_, ?_, ?_⟩
        · rw [hother p hpp]; exact hl1
        · rw [hother p hpp]; exact hk
        · rw [hother p hpp]; exact hv

/-- The write of `remove` (`isDeleted = true`, `elementCount--`) on a Live
slot: the invariant is kept, the count drops by one, and exactly that slot's
key stops being Live. -/
theorem markDeleted_spec {d : HashDictionary K V} (hI : Inv stdHash d)
    {pos : Nat} (hp : pos < d.table.length) (hl : (d.slot pos).live = true) :
    Inv stdHash { table := d.table.set pos { d.slot pos with isDeleted := true },
                  elementCount := d.elementCount - 1 } ∧
    d.elementCount - 1 + 1 = d.elementCount ∧
    ∀ k v, Maps ({ table := d.table.set pos { d.slot pos with isDeleted := true },
                   elementCount := d.elementCount - 1 } : HashDictionary K V) k v ↔
      (k ≠ (d.slot pos).key ∧ Maps d k v) := by
  set e : Entry K V := { d.slot pos with isDeleted := true } with he_def
  set d1 : HashDictionary K V :=
    { table := d.table.set pos e, elementCount := d.elementCount - 1 } with hd1
  have hlen : d1.table.length = d.table.length := by simp [hd1]
  have hself : d1.slot pos = e := slot_set_self d pos _ e hp
  have hother : ∀ q, pos ≠ q → d1.slot q = d.slot q := fun q hq => slot_set_other d pos q _ e hq
  have henl : e.live = false := by
    show (e.isOccupied && !e.isDeleted) = false
    simp [he_def]
  have hcnt := countP_set_add Entry.live Entry.empty d.table pos e hp
  have hl1 : Entry.live (d.table.getD pos Entry.empty) = true := hl
  rw [hl1, henl] at hcnt
  simp only [if_true, Bool.false_eq_true, if_false, Nat.add_zero] at hcnt
  have hc := hI.count_live
  refine ⟨⟨?_, ?_, ?_⟩, by omega, ?_⟩
  · rw [hlen]; exact hI.size_pos
  · show d.elementCount - 1 = (d.table.set pos e).countP Entry.live
    omega
  · intro p hp1 hlp
    rw [hlen] at hp1
    have hpp : pos ≠ p := by
      intro h
      subst h
      rw [hself, henl] at hlp
      cases hlp
    rw [hother p hpp] at hlp ⊢
    have hkne : (d.slot pos).key ≠ (d.slot p).key := fun hk =>
      hpp (hI.unique stdHash hp hp1 hl hlp hk)
    rw [findPosition_ext stdHash d d1 _ hlen]
    · exact hI.chain p hp1 hlp
    · intro y
      by_cases hy : pos = y
      · subst hy
        rw [hself]
        have h1 : stopAt e (d.slot p).key = false := by
          have ho0 : (d.slot pos).isOccupied = true := live_isOccupied hl
          have ho : e.isOccupied = true := ho0
          refine (stopAt_eq_false_iff _ _).2 ⟨ho, ?_⟩
          intro hh
          rw [henl] at hh
          cases hh
        have h2 : stopAt (d.slot pos) (d.slot p).key = false :=
          (stopAt_eq_false_iff _ _).2 ⟨live_isOccupied hl, fun _ => hkne⟩
        rw [h1, h2]
      · rw [hother y hy]
  · intro k v
    constructor
    · rintro ⟨p, hp1, hlp, hk, hv⟩
      rw [hlen] at hp1
      have hpp : pos ≠ p := by
        intro h
        subst h
        rw [hself, henl] at hlp
        cases hlp
      rw [hother p hpp] at hlp hk hv
      refine ⟨?_, p, hp1, hlp, hk, hv⟩
      intro hkk
      exact hpp (hI.unique stdHash hp hp1 hl hlp (by rw [hk, hkk]))
    · rintro ⟨hne, p, hp1, hlp, hk, hv⟩
      have hpp : pos ≠ p := by
        intro h
        subst h
        exact hne hk.symm
      refine ⟨p, by rw [hlen]; exact hp1, ?_, ?_, ?_⟩
      · rw [hother p hpp]; exact hlp
      · rw [hother p hpp]; exact hk
      · rw [hother p hpp]; exact hv

end Writes

/-! ## `insert` without the load-factor test -/

section Place

variable {K V : Type} [DecidableEq K] [DecidableEq V] [Inhabited K] [Inhabited V]
variable (stdHash : K → Nat)

open HashDictionary

/-- The two ways `place` returns. -/
theorem place_cases {d d1 : HashDictionary K V} {key : K} {value : V}
    (h : place stdHash d key value = .ok d1) :
    ∃ pos, findPosition stdHash d key = .ok pos ∧
      (((d.slot pos).isOccupied = false ∧
          d1 = { table := d.table.set pos
                   { key := key, value := value, isOccupied := true, isDeleted := false },
                 elementCount := d.elementCount + 1 }) ∨
       ((d.slot pos).live = true ∧ (d.slot pos).key = key ∧
          d1 = { table := d.table.set pos { d.slot pos with value := value },
                 elementCount := d.elementCount })) := by
  unfold place at h
  cases hf : findPosition stdHash d key with
  | error e => simp [hf] at h
  | ok pos =>
    simp only [hf] at h
    refine ⟨pos, rfl, ?_⟩
    rcases (stopAt_iff _ _).1 (findPosition_stop stdHash d key pos hf) with ho | ⟨hl, hk⟩
    · left
      simp only [ho, Bool.not_false, Bool.true_or, if_true] at h
      injection h with h
      exact ⟨ho, h.symm⟩
    · right
      have ho := live_isOccupied hl
      have hd := live_isDeleted hl
      have hc : (!(d.slot pos).isOccupied || (d.slot pos).isDeleted) = false := by
        simp [ho, hd]
      rw [hc] at h
      simp only [Bool.false_eq_true, if_false] at h
      injection h with h
      exact ⟨hl, hk, h.symm⟩

/-- `place` keeps the number of slots and adds at most one to the counter. -/
theorem place_length_count {d d1 : HashDictionary K V} {key : K} {value : V}
    (h : place stdHash d key value = .ok d1) :
    d1.table.length = d.table.length ∧ d1.elementCount ≤ d.elementCount + 1 := by
  obtain ⟨pos, _, ⟨_, rfl⟩ | ⟨_, _, rfl⟩⟩ := place_cases stdHash h <;> simp

/-- `place` on a table that satisfies the invariant. -/
theorem place_spec {d d1 : HashDictionary K V} (hI : Inv stdHash d) {key : K} {value : V}
    (h : place stdHash d key value = .ok d1) :
    Inv stdHash d1 ∧ d1.table.length = d.table.length ∧
    (∀ k v, Maps d1 k v ↔ (k = key ∧ v = value) ∨ (k ≠ key ∧ Maps d k v)) ∧
    (KeyLive d key → d1.elementCount = d.elementCount) ∧
    (¬ KeyLive d key → d1.elementCount = d.elementCount + 1) ∧
    (NoTomb d → NoTomb d1) := by
  obtain ⟨pos, hf, ⟨ho, rfl⟩ | ⟨hl, hk, rfl⟩⟩ := place_cases stdHash h
  · obtain ⟨h1, h2, h3⟩ := claim_spec stdHash hI value hf ho
    have hp := findPosition_lt stdHash d key pos hI.size_pos hf
    refine ⟨h1, by simp, h3, fun hk => absurd hk h2, fun _ => rfl, ?_⟩
    intro hnt p hp1 hocc
    have hp2 : p < d.table.length := by simpa using hp1
    by_cases hpp : pos = p
    · subst hpp
      rw [slot_set_self d pos _ _ hp]
    · rw [slot_set_other d pos p _ _ hpp] at hocc ⊢
      exact hnt p hp2 hocc
  · have hp := findPosition_lt stdHash d key pos hI.size_pos hf
    obtain ⟨h1, h3⟩ := setValue_spec stdHash hI value hp hl
    rw [hk] at h3
    have hkl : KeyLive d key := ⟨_, pos, hp, hl, hk, rfl⟩
    refine ⟨h1, by simp, h3, fun _ => rfl, fun hn => absurd hkl hn, ?_⟩
    intro hnt p hp1 hocc
    have hp2 : p < d.table.length := by simpa using hp1
    by_cases hpp : pos = p
    · subst hpp
      rw [slot_set_self d pos _ _ hp]
      exact live_isDeleted hl
    · rw [slot_set_other d pos p _ _ hpp] at hocc ⊢
      exact hnt p hp2 hocc

/-- `place` returns whenever the probe does. -/
theorem place_ok_of_find {d : HashDictionary K V} {key : K} (value : V) {pos : Nat}
    (hf : findPosition stdHash d key = .ok pos) :
    ∃ d1, place stdHash d key value = .ok d1 := by
  unfold place
  simp only [hf]
  split <;> exact ⟨_, rfl⟩

/-- A table without Tombstones whose counter is below the number of slots has
a slot that is not occupied. -/
theorem exists_empty_of_noTomb {d : HashDictionary K V} (hI : Inv stdHash d) (hnt : NoTomb d)
    (hc : d.elementCount < d.table.length) :
    ∃ p, p < d.table.length ∧ (d.slot p).isOccupied = false := by
  rw [hI.count_live] at hc
  obtain ⟨a, ha, hla⟩ := exists_not_of_countP_lt Entry.live d.table hc
  obtain ⟨p, hp, hpa⟩ := (mem_iff_getD Entry.empty d.table a).1 ha
  refine ⟨p, hp, ?_⟩
  have hsl : d.slot p = a := hpa
  cases ho : (d.slot p).isOccupied with
  | false => rfl
  | true =>
    have hd := hnt p hp ho
    rw [← hsl] at hla
    unfold Entry.live at hla
    simp [ho, hd] at hla

end Place

/-! ## `resize` and `insert` -/

section Insert

variable {K V : Type} [DecidableEq K] [DecidableEq V] [Inhabited K] [Inhabited V]
variable (stdHash : K → Nat)

open HashDictionary

/-- The probe loop run by `findPosition` never exhausts its iteration bound. -/
theorem probeLoop_fuel (d : HashDictionary K V) (key : K) (o : Nat) (ho : o < d.table.length) :
    ∀ (n i : Nat), i + n = d.table.length → i < d.table.length →
      probeLoop d key o n ((o + i) % d.table.length) ≠ .error .outOfFuel := by
  intro n
  induction n with
  | zero => intro i h1 h2; omega
  | succ n ih =>
    intro i h1 h2
    unfold probeLoop
    by_cases hs : stopAt (d.slot ((o + i) % d.table.length)) key = true
    · simp [hs]
    · simp only [hs, Bool.false_eq_true, if_false]
      rw [succ_mod_step]
      by_cases hw : (o + (i + 1)) % d.table.length = o
      · simp [hw]
      · simp only [hw, if_false]
        have hi : i + 1 < d.table.length := by
          rcases Nat.lt_or_ge (i + 1) d.table.length with h | h
          · exact h
          · exfalso
            apply hw
            have : i + 1 = d.table.length := by omega
            rw [this, Nat.add_mod_right, Nat.mod_eq_of_lt ho]
        exact ih (i + 1) (by omega) hi

theorem findPosition_fuel (d : HashDictionary K V) (key : K) (hlen : 0 < d.table.length) :
    findPosition stdHash d key ≠ .error .outOfFuel := by
  have ho : HashDictionary.hash stdHash d key < d.table.length := Nat.mod_lt _ hlen
  have := probeLoop_fuel d key _ ho d.table.length 0 (by omega) hlen
  rwa [Nat.add_zero, Nat.mod_eq_of_lt ho] at this

theorem place_fuel (d : HashDictionary K V) (key : K) (value : V) (hlen : 0 < d.table.length) :
    place stdHash d key value ≠ .error .outOfFuel := by
  unfold place
  cases hf : findPosition stdHash d key with
  | error e =>
    intro h
    injection h with h
    subst h
    exact findPosition_fuel stdHash d key hlen hf
  | ok pos =>
    simp only
    split <;> intro h <;> cases h

/-- The calls of `insert` made by `resize` never resize again: the new table
has twice as many slots as the old one has entries. -/
theorem rehash_fuel (n : Nat) :
    ∀ (rest : List (Entry K V)) (acc : HashDictionary K V), 0 < acc.table.length →
      2 * (acc.elementCount + rest.length) ≤ acc.table.length →
      rehash (insertFuel stdHash (n + 1)) rest acc = rehash (place stdHash) rest acc := by
  intro rest
  induction rest with
  | nil => intro acc _ _; rfl
  | cons e rest ih =>
    intro acc h0 h1
    simp only [List.length_cons] at h1
    unfold rehash
    by_cases hl : (e.isOccupied && !e.isDeleted) = true
    · simp only [hl, if_true]
      have hnr : needsResize acc = false := by
        unfold needsResize
        simp only [decide_eq_false_iff_not]
        omega
      have hins : insertFuel stdHash (n + 1) acc e.key e.value = place stdHash acc e.key e.value := by
        unfold insertFuel
        simp [hnr]
      rw [hins]
      cases hp : place stdHash acc e.key e.value with
      | error err => rfl
      | ok acc1 =>
        simp only
        obtain ⟨h2, h3⟩ := place_length_count stdHash hp
        exact ih acc1 (by omega) (by omega)
    · simp only [hl]
      exact ih acc h0 (by omega)

theorem resizeWith_fuel (n : Nat) (d : HashDictionary K V) (hlen : 0 < d.table.length) :
    resizeWith (insertFuel stdHash (n + 1)) d = resizeWith (place stdHash) d := by
  unfold resizeWith
  apply rehash_fuel
  · simp; omega
  · simp; omega

/-- `insert` unfolded: the calls made by `resize` are calls of `place`. -/
theorem insertFuel_eq (n : Nat) (d : HashDictionary K V) (key : K) (value : V)
    (hlen : 0 < d.table.length) :
    insertFuel stdHash (n + 2) d key value =
      if needsResize d then
        match resizeWith (place stdHash) d with
        | .error e => .error e
        | .ok d1 => place stdHash d1 key value
      else place stdHash d key value := by
  show (if needsResize d then
        match resizeWith (insertFuel stdHash (n + 1)) d with
        | .error e => .error e
        | .ok d1 => place stdHash d1 key value
      else place stdHash d key value) = _
  rw [resizeWith_fuel stdHash n d hlen]

/-- The recursion bound of `insert` is adequate: a larger bound gives the same
result. -/
theorem insertFuel_adequate (n : Nat) (d : HashDictionary K V) (key : K) (value : V)
    (hlen : 0 < d.table.length) :
    insertFuel stdHash (n + 2) d key value = insert stdHash d key value := by
  unfold HashDictionary.insert
  rw [insertFuel_eq stdHash n d key value hlen, insertFuel_eq stdHash 0 d key value hlen]

theorem insert_eq (d : HashDictionary K V) (key : K) (value : V) (hlen : 0 < d.table.length) :
    insert stdHash d key value =
      if needsResize d then
        match resizeWith (place stdHash) d with
        | .error e => .error e
        | .ok d1 => place stdHash d1 key value
      else place stdHash d key value :=
  insertFuel_eq stdHash 0 d key value hlen

/-- The loop of `resize` keeps the number of slots of the new table and never
exhausts a bound. -/
theorem rehash_place_fuel :
    ∀ (rest : List (Entry K V)) (acc : HashDictionary K V), 0 < acc.table.length →
      rehash (place stdHash) rest acc ≠ .error .outOfFuel ∧
      ∀ d1, rehash (place stdHash) rest acc = .ok d1 → d1.table.length = acc.table.length := by
  intro rest
  induction rest with
  | nil =>
    intro acc _
    refine ⟨fun h => (by cases h), ?_⟩
    intro d1 h
    injection h with h
    rw [h]
  | cons e rest ih =>
    intro acc hlen
    unfold rehash
    by_cases hl : (e.isOccupied && !e.isDeleted) = true
    · simp only [hl, if_true]
      cases hp : place stdHash acc e.key e.value with
      | error err =>
        refine ⟨?_, fun d1 h => by cases h⟩
        intro h
        injection h with h
        subst h
        exact place_fuel stdHash acc e.key e.value hlen hp
      | ok acc1 =>
        simp only
        obtain ⟨h2, _⟩ := place_length_count stdHash hp
        obtain ⟨h3, h4⟩ := ih acc1 (by omega)
        exact ⟨h3, fun d1 h => by rw [h4 d1 h, h2]⟩
    · simp only [hl]
      exact ih acc hlen

/-- `insert` never reports an exhausted bound: its errors are those of the
code. -/
theorem insert_fuel (d : HashDictionary K V) (key : K) (value : V) (hlen : 0 < d.table.length) :
    insert stdHash d key value ≠ .error .outOfFuel := by
  rw [insert_eq stdHash d key value hlen]
  have hb : 0 < (List.replicate (d.table.length * 2) (Entry.empty : Entry K V)).length := by
    simp; omega
  obtain ⟨h1, h2⟩ := rehash_place_fuel stdHash d.table
    { table := List.replicate (d.table.length * 2) Entry.empty, elementCount := 0 } hb
  by_cases hr : needsResize d = true
  · simp only [hr, if_true]
    unfold resizeWith
    cases hres : rehash (place stdHash) d.table
        { table := List.replicate (d.table.length * 2) Entry.empty, elementCount := 0 } with
    | error err =>
      intro h
      injection h with h
      subst h
      exact h1 hres
    | ok d1 =>
      simp only
      have := h2 d1 hres
      exact place_fuel stdHash d1 key value (by rw [this]; exact hb)
  · simp only [hr]
    exact place_fuel stdHash d key value hlen

end Insert

/-! ## What `resize` and `insert` do to the Live pairs -/

section InsertSpec

variable {K V : Type} [DecidableEq K] [DecidableEq V] [Inhabited K] [Inhabited V]
variable (stdHash : K → Nat)

open HashDictionary

theorem slot_blank (n p : Nat) : (blank n : HashDictionary K V).slot p = Entry.empty := by
  unfold blank slot
  simp only [List.getD_eq_getElem?_getD, List.getElem?_replicate]
  split <;> rfl

theorem not_maps_blank (n : Nat) (k : K) (v : V) : ¬ Maps (blank n : HashDictionary K V) k v := by
  rintro ⟨p, _, hl, _⟩
  rw [slot_blank] at hl
  cases hl

theorem inv_blank (n : Nat) (hn : 0 < n) : Inv stdHash (blank n : HashDictionary K V) := by
  refine ⟨by simpa [blank] using hn, ?_, ?_⟩
  · show 0 = (List.replicate n (Entry.empty : Entry K V)).countP Entry.live
    symm
    rw [List.countP_eq_zero]
    intro a ha
    rw [List.eq_of_mem_replicate ha]
    simp [Entry.live, Entry.empty]
  · intro p _ hl
    rw [slot_blank] at hl
    cases hl

theorem noTomb_blank (n : Nat) : NoTomb (blank n : HashDictionary K V) := by
  intro p _ ho
  rw [slot_blank] at ho
  cases ho

/-- The slots of a table that satisfies the invariant are pairwise distinct in
their Live keys. -/
theorem Inv.pairwise {d : HashDictionary K V} (hI : Inv stdHash d) :
    d.table.Pairwise DistinctLive := by
  rw [List.pairwise_iff_getElem]
  intro i j hi hj hij hli hlj hk
  have e1 : d.slot i = d.table[i] := List.getD_eq_getElem _ _ hi
  have e2 : d.slot j = d.table[j] := List.getD_eq_getElem _ _ hj
  rw [← e1] at hli hk
  rw [← e2] at hlj hk
  have := hI.unique stdHash hi hj hli hlj hk
  omega

theorem maps_iff_mem (d : HashDictionary K V) (k : K) (v : V) :
    Maps d k v ↔ ∃ e ∈ d.table, e.live = true ∧ e.key = k ∧ e.value = v := by
  constructor
  · rintro ⟨p, hp, hl, hk, hv⟩
    exact ⟨d.slot p, (mem_iff_getD Entry.empty d.table _).2 ⟨p, hp, rfl⟩, hl, hk, hv⟩
  · rintro ⟨e, he, hl, hk, hv⟩
    obtain ⟨p, hp, hpe⟩ := (mem_iff_getD Entry.empty d.table e).1 he
    have hs : d.slot p = e := hpe
    exact ⟨p, hp, by rw [hs]; exact hl, by rw [hs]; exact hk, by rw [hs]; exact hv⟩

/-- The loop of `resize`: started on a table without Tombstones that has room,
with entries whose Live keys are distinct and not yet in the table, it returns
and adds exactly the Live entries. -/
theorem rehash_spec :
    ∀ (rest : List (Entry K V)) (acc : HashDictionary K V),
      Inv stdHash acc → NoTomb acc → rest.Pairwise DistinctLive →
      (∀ e ∈ rest, e.live = true → ¬ KeyLive acc e.key) →
      acc.elementCount + rest.countP Entry.live < acc.table.length →
      ∃ d1, rehash (place stdHash) rest acc = .ok d1 ∧ Inv stdHash d1 ∧ NoTomb d1 ∧
        d1.table.length = acc.table.length ∧
        d1.elementCount = acc.elementCount + rest.countP Entry.live ∧
        ∀ k v, Maps d1 k v ↔
          Maps acc k v ∨ ∃ e ∈ rest, e.live = true ∧ e.key = k ∧ e.value = v := by
  intro rest
  induction rest with
  | nil =>
    intro acc hI hnt _ _ _
    exact ⟨acc, rfl, hI, hnt, rfl, by simp, by simp⟩
  | cons e rest ih =>
    intro acc hI hnt hpw hfresh hroom
    rw [List.pairwise_cons] at hpw
    obtain ⟨hhead, htail⟩ := hpw
    unfold rehash
    by_cases hl : e.live = true
    · have hl1 : (e.isOccupied && !e.isDeleted) = true := hl
      simp only [hl1, if_true]
      have hcp : (e :: rest).countP Entry.live = rest.countP Entry.live + 1 := by
        rw [List.countP_cons_of_pos _ _ hl]
      rw [hcp] at hroom
      obtain ⟨p, hp, hpe⟩ := exists_empty_of_noTomb stdHash hI hnt (by omega)
      obtain ⟨q, hq⟩ := findPosition_ok_of_empty stdHash acc e.key p hp hpe
      obtain ⟨acc1, hacc1⟩ := place_ok_of_find stdHash e.value hq
      obtain ⟨hI1, hlen1, hmaps1, _, hcnt1, hnt1⟩ := place_spec stdHash hI hacc1
      have hnk : ¬ KeyLive acc e.key := hfresh e (List.mem_cons_self _ _) hl
      have hc1 := hcnt1 hnk
      obtain ⟨d1, hd1, hI2, hnt2, hlen2, hcnt2, hmaps2⟩ := ih acc1 hI1 (hnt1 hnt) htail
        (by
          intro e1 he1 hl1 hkl
          obtain ⟨v, hm⟩ := hkl
          rcases (hmaps1 _ _).1 hm with ⟨hk, _⟩ | ⟨_, hm0⟩
          · exact hhead e1 he1 hl hl1 hk.symm
          · exact hfresh e1 (List.mem_cons_of_mem _ he1) hl1 ⟨v, hm0⟩)
        (by omega)
      rw [hacc1]
      refine ⟨d1, hd1, hI2, hnt2, by omega, by omega, ?_⟩
      intro k v
      rw [hmaps2, hmaps1]
      constructor
      · rintro ((⟨hk, hv⟩ | ⟨_, hm⟩) | ⟨e1, he1, h1⟩)
        · exact Or.inr ⟨e, List.mem_cons_self _ _, hl, hk.symm, hv.symm⟩
        · exact Or.inl hm
        · exact Or.inr ⟨e1, List.mem_cons_of_mem _ he1, h1⟩
      · rintro (hm | ⟨e1, he1, hl1, hk1, hv1⟩)
        · refine Or.inl (Or.inr ⟨?_, hm⟩)
          intro hk
          exact hnk ⟨v, hk ▸ hm⟩
        · rcases List.mem_cons.1 he1 with rfl | he1
          · exact Or.inl (Or.inl ⟨hk1.symm, hv1.symm⟩)
          · exact Or.inr ⟨e1, he1, hl1, hk1, hv1⟩
    · have hnl : ¬ (e.isOccupied && !e.isDeleted) = true := hl
      simp only [hnl, if_false]
      have hcp : (e :: rest).countP Entry.live = rest.countP Entry.live := by
        rw [List.countP_cons_of_neg _ _ hl]
      rw [hcp] at hroom
      obtain ⟨d1, hd1, hI2, hnt2, hlen2, hcnt2, hmaps2⟩ := ih acc hI hnt htail
        (fun e1 he1 => hfresh e1 (List.mem_cons_of_mem _ he1)) hroom
      refine ⟨d1, hd1, hI2, hnt2, hlen2, by omega, ?_⟩
      intro k v
      rw [hmaps2]
      constructor
      · rintro (hm | ⟨e1, he1, h1⟩)
        · exact Or.inl hm
        · exact Or.inr ⟨e1, List.mem_cons_of_mem _ he1, h1⟩
      · rintro (hm | ⟨e1, he1, hl1, hk1, hv1⟩)
        · exact Or.inl hm
        · rcases List.mem_cons.1 he1 with rfl | he1
          · exact absurd hl1 hl
          · exact Or.inr ⟨e1, he1, hl1, hk1, hv1⟩

/-- `resize` on a table that satisfies the invariant returns a table with
twice as many slots, no Tombstones, the same counter and the same Live pairs. -/
theorem resize_spec {d : HashDictionary K V} (hI : Inv stdHash d) :
    ∃ d1, resizeWith (place stdHash) d = .ok d1 ∧ Inv stdHash d1 ∧ NoTomb d1 ∧
      d1.table.length = d.table.length * 2 ∧ d1.elementCount = d.elementCount ∧
      ∀ k v, Maps d1 k v ↔ Maps d k v := by
  have hlen := hI.size_pos
  have hcl : d.table.countP Entry.live ≤ d.table.length := List.countP_le_length _
  obtain ⟨d1, hd1, hI1, hnt1, hlen1, hcnt1, hmaps1⟩ :=
    rehash_spec stdHash d.table (blank (d.table.length * 2))
      (inv_blank stdHash _ (by omega)) (noTomb_blank _) (hI.pairwise stdHash)
      (fun e _ _ hk => by obtain ⟨v, hm⟩ := hk; exact not_maps_blank _ _ _ hm)
      (by simp [blank]; omega)
  refine ⟨d1, hd1, hI1, hnt1, by simpa [blank] using hlen1, ?_, ?_⟩
  · rw [hcnt1, hI.count_live]; simp [blank]
  · intro k v
    rw [hmaps1, maps_iff_mem d]
    constructor
    · rintro (hm | h)
      · exact absurd hm (not_maps_blank _ _ _)
      · exact h
    · exact Or.inr

/-- `insert` on a table that satisfies the invariant: when it returns, the
invariant holds, the Live pairs are those of before with `key ↦ value`, and the
counter grows by one exactly when `key` was not Live. -/
theorem insert_spec {d d1 : HashDictionary K V} (hI : Inv stdHash d) {key : K} {value : V}
    (h : insert stdHash d key value = .ok d1) :
    Inv stdHash d1 ∧
    (∀ k v, Maps d1 k v ↔ (k = key ∧ v = value) ∨ (k ≠ key ∧ Maps d k v)) ∧
    (KeyLive d key → d1.elementCount = d.elementCount) ∧
    (¬ KeyLive d key → d1.elementCount = d.elementCount + 1) ∧
    (NoTomb d → NoTomb d1) ∧
    (d1.table.length = d.table.length ∨ d1.table.length = d.table.length * 2) := by
  rw [insert_eq stdHash d key value hI.size_pos] at h
  by_cases hr : needsResize d = true
  · simp only [hr, if_true] at h
    obtain ⟨d2, hd2, hI2, hnt2, hlen2, hcnt2, hmaps2⟩ := resize_spec stdHash hI
    rw [hd2] at h
    obtain ⟨hI1, hlen1, hmaps1, hc1, hc2, hnt1⟩ := place_spec stdHash hI2 h
    have hkl : KeyLive d2 key ↔ KeyLive d key :=
      ⟨fun ⟨v, hm⟩ => ⟨v, (hmaps2 _ _).1 hm⟩, fun ⟨v, hm⟩ => ⟨v, (hmaps2 _ _).2 hm⟩⟩
    refine ⟨hI1, ?_, ?_, ?_, fun _ => hnt1 hnt2, Or.inr (by omega)⟩
    · intro k v
      rw [hmaps1, hmaps2]
    · intro hk
      rw [hc1 (hkl.2 hk), hcnt2]
    · intro hk
      rw [hc2 (fun h => hk (hkl.1 h)), hcnt2]
  · simp only [hr] at h
    obtain ⟨hI1, hlen1, hmaps1, hc1, hc2, hnt1⟩ := place_spec stdHash hI h
    exact ⟨hI1, hmaps1, hc1, hc2, hnt1, Or.inl hlen1⟩

/-- `insert` returns on every table without Tombstones that satisfies the
invariant. -/
theorem insert_ok {d : HashDictionary K V} (hI : Inv stdHash d) (hnt : NoTomb d)
    (key : K) (value : V) : ∃ d1, insert stdHash d key value = .ok d1 := by
  rw [insert_eq stdHash d key value hI.size_pos]
  have hcl : d.table.countP Entry.live ≤ d.table.length := List.countP_le_length _
  have hc := hI.count_live
  have hlen := hI.size_pos
  by_cases hr : needsResize d = true
  · simp only [hr, if_true]
    obtain ⟨d2, hd2, hI2, hnt2, hlen2, hcnt2, _⟩ := resize_spec stdHash hI
    rw [hd2]
    obtain ⟨p, hp, hpe⟩ := exists_empty_of_noTomb stdHash hI2 hnt2 (by omega)
    obtain ⟨q, hq⟩ := findPosition_ok_of_empty stdHash d2 key p hp hpe
    exact place_ok_of_find stdHash value hq
  · simp only [hr]
    have hlt : d.elementCount < d.table.length := by
      unfold needsResize at hr
      simp only [decide_eq_true_eq] at hr
      omega
    obtain ⟨p, hp, hpe⟩ := exists_empty_of_noTomb stdHash hI hnt hlt
    obtain ⟨q, hq⟩ := findPosition_ok_of_empty stdHash d key p hp hpe
    exact place_ok_of_find stdHash value hq

/-- `insert` returns when the key is Live. -/
theorem insert_ok_of_live {d : HashDictionary K V} (hI : Inv stdHash d)
    {key : K} (hk : KeyLive d key) (value : V) :
    ∃ d1, insert stdHash d key value = .ok d1 := by
  rw [insert_eq stdHash d key value hI.size_pos]
  by_cases hr : needsResize d = true
  · simp only [hr, if_true]
    obtain ⟨d2, hd2, hI2, _, _, _, hmaps2⟩ := resize_spec stdHash hI
    rw [hd2]
    obtain ⟨v, hm⟩ := hk
    obtain ⟨p, hf, _⟩ := hI2.find_of_maps stdHash ((hmaps2 _ _).2 hm)
    exact place_ok_of_find stdHash value hf
  · simp only [hr]
    obtain ⟨v, hm⟩ := hk
    obtain ⟨p, hf, _⟩ := hI.find_of_maps stdHash hm
    exact place_ok_of_find stdHash value hf

end InsertSpec

/-! ## `remove`, the mutable `operator[]`, and reachable tables -/

section Reach

variable {K V : Type} [DecidableEq K] [DecidableEq V] [Inhabited K] [Inhabited V]
variable (stdHash : K → Nat)

open HashDictionary

/-- The two ways `remove` returns. -/
theorem remove_cases {d d1 : HashDictionary K V} {key : K} {b : Bool}
    (h : remove stdHash d key = .ok (d1, b)) :
    ∃ pos, findPosition stdHash d key = .ok pos ∧
      (((d.slot pos).live = true ∧ (d.slot pos).key = key ∧ b = true ∧
          d1 = { table := d.table.set pos { d.slot pos with isDeleted := true },
                 elementCount := d.elementCount - 1 }) ∨
       ((d.slot pos).live = false ∧ b = false ∧ d1 = d)) := by
  unfold remove at h
  cases hf : findPosition stdHash d key with
  | error e => simp [hf] at h
  | ok pos =>
    simp only [hf] at h
    refine ⟨pos, rfl, ?_⟩
    by_cases hl : (d.slot pos).live = true
    · left
      have hc : ((d.slot pos).isOccupied && !(d.slot pos).isDeleted) = true := hl
      rw [hc] at h
      simp only [if_true] at h
      injection h with h
      injection h with h1 h2
      rcases (stopAt_iff _ _).1 (findPosition_stop stdHash d key pos hf) with ho | ⟨_, hk⟩
      · rw [live_isOccupied hl] at ho; cases ho
      · exact ⟨hl, hk, h2.symm, h1.symm⟩
    · right
      have hc : ((d.slot pos).isOccupied && !(d.slot pos).isDeleted) = false := by
        simpa [Entry.live] using hl
      rw [hc] at h
      simp only [Bool.false_eq_true, if_false] at h
      injection h with h
      injection h with h1 h2
      exact ⟨by simpa using hl, h2.symm, h1.symm⟩

/-- `remove` on a table that satisfies the invariant. -/
theorem remove_spec {d d1 : HashDictionary K V} (hI : Inv stdHash d) {key : K} {b : Bool}
    (h : remove stdHash d key = .ok (d1, b)) :
    Inv stdHash d1 ∧ d1.table.length = d.table.length ∧
    (b = true → KeyLive d key ∧ d1.elementCount + 1 = d.elementCount ∧
      ∀ k v, Maps d1 k v ↔ (k ≠ key ∧ Maps d k v)) ∧
    (b = false → d1 = d ∧ ¬ KeyLive d key) := by
  obtain ⟨pos, hf, ⟨hl, hk, rfl, rfl⟩ | ⟨hl, rfl, rfl⟩⟩ := remove_cases stdHash h
  · have hp := findPosition_lt stdHash d key pos hI.size_pos hf
    obtain ⟨h1, h2, h3⟩ := markDeleted_spec stdHash hI hp hl
    rw [hk] at h3
    refine ⟨h1, by simp, fun _ => ⟨⟨_, pos, hp, hl, hk, rfl⟩, h2, h3⟩, fun hb => by cases hb⟩
  · refine ⟨hI, rfl, fun hb => Bool.noConfusion hb, fun _ => ⟨rfl, ?_⟩⟩
    rintro ⟨v, hm⟩
    obtain ⟨q, hq, _, hlq, _, _⟩ := hI.find_of_maps stdHash hm
    rw [hf] at hq
    injection hq with hq
    subst hq
    rw [hl] at hlq
    cases hlq

/-- The mutable `operator[]` on a table that satisfies the invariant: the
returned slot is Live with the key, and the table is either unchanged (the key
was Live) or the result of `insert(key, V{})`. -/
theorem index_spec {d d1 : HashDictionary K V} (hI : Inv stdHash d) {key : K} {pos : Nat}
    (h : index stdHash d key = .ok (d1, pos)) :
    Inv stdHash d1 ∧ pos < d1.table.length ∧ (d1.slot pos).live = true ∧
    (d1.slot pos).key = key ∧
    ((KeyLive d key ∧ d1 = d) ∨
      (¬ KeyLive d key ∧ insert stdHash d key default = .ok d1)) := by
  unfold index at h
  cases hf : findPosition stdHash d key with
  | error e => simp [hf] at h
  | ok p =>
    simp only [hf] at h
    have hp := findPosition_lt stdHash d key p hI.size_pos hf
    rcases (stopAt_iff _ _).1 (findPosition_stop stdHash d key p hf) with ho | ⟨hl, hk⟩
    · have hc : (!(d.slot p).isOccupied || (d.slot p).isDeleted) = true := by simp [ho]
      rw [hc] at h
      simp only [if_true] at h
      have hnk : ¬ KeyLive d key := by
        rintro ⟨v, hm⟩
        obtain ⟨q, hq, _, hlq, _, _⟩ := hI.find_of_maps stdHash hm
        rw [hf] at hq
        injection hq with hq
        subst hq
        rw [live_isOccupied hlq] at ho
        cases ho
      cases hins : insert stdHash d key default with
      | error e => simp [hins] at h
      | ok d2 =>
        simp only [hins] at h
        obtain ⟨hI2, hmaps2, _⟩ := insert_spec stdHash hI hins
        obtain ⟨q, hq, hq1, hq2, hq3, _⟩ :=
          hI2.find_of_maps stdHash ((hmaps2 key default).2 (Or.inl ⟨rfl, rfl⟩))
        rw [hq] at h
        injection h with h
        injection h with h1 h2
        subst h1 h2
        exact ⟨hI2, hq1, hq2, hq3, Or.inr ⟨hnk, rfl⟩⟩
    · have hc : (!(d.slot p).isOccupied || (d.slot p).isDeleted) = false := by
        simp [live_isOccupied hl, live_isDeleted hl]
      rw [hc] at h
      simp only [Bool.false_eq_true, if_false] at h
      injection h with h
      injection h with h1 h2
      subst h1 h2
      exact ⟨hI, hp, hl, hk, Or.inl ⟨⟨_, p, hp, hl, hk, rfl⟩, rfl⟩⟩

theorem inv_new : Inv stdHash (HashDictionary.new : HashDictionary K V) :=
  inv_blank stdHash 16 (by decide)

/-- Every reachable table satisfies the representation invariant. -/
theorem Reachable.inv {d : HashDictionary K V} (h : Reachable stdHash d) : Inv stdHash d := by
  induction h with
  | fresh => exact inv_new stdHash
  | insert _ hins ih => exact (insert_spec stdHash ih hins).1
  | remove _ hrem ih => exact (remove_spec stdHash ih hrem).1
  | index _ hidx ih => exact (index_spec stdHash ih hidx).1
  | assign value _ hidx ih =>
    obtain ⟨hI, hp, hl, _⟩ := index_spec stdHash ih hidx
    exact (setValue_spec stdHash hI value hp hl).1
  | clear _ _ => exact inv_new stdHash

theorem isLive_iff (d : HashDictionary K V) (key : K) : isLive d key = true ↔ KeyLive d key := by
  unfold isLive KeyLive
  simp only [List.any_eq_true, Bool.and_eq_true, decide_eq_true_eq]
  constructor
  · rintro ⟨e, he, hl, hk⟩
    exact ⟨e.value, (maps_iff_mem d key e.value).2 ⟨e, he, hl, hk, rfl⟩⟩
  · rintro ⟨v, hm⟩
    obtain ⟨e, he, hl, hk, _⟩ := (maps_iff_mem d key v).1 hm
    exact ⟨e, he, hl, hk⟩

theorem isLive_eq_false_iff (d : HashDictionary K V) (key : K) :
    isLive d key = false ↔ ¬ KeyLive d key := by
  rw [← isLive_iff]
  simp

end Reach

/-! ## `operator==` and `operator&&` -/

section SetOps

variable {K V : Type} [DecidableEq K] [DecidableEq V] [Inhabited K] [Inhabited V]
variable (stdHash : K → Nat)

open HashDictionary

/-- The loop of `operator==` returns `true` when every Live entry it visits is
Live in `other` with the same value. -/
theorem equalsLoop_true {other : HashDictionary K V} (hI : Inv stdHash other) :
    ∀ (l : List (Entry K V)), (∀ e ∈ l, e.live = true → Maps other e.key e.value) →
      equalsLoop stdHash other l = .ok true := by
  intro l
  induction l with
  | nil => intro _; rfl
  | cons e rest ih =>
    intro h
    unfold equalsLoop
    by_cases hl : e.live = true
    · have hl1 : (e.isOccupied && !e.isDeleted) = true := hl
      obtain ⟨hc, hi⟩ := hI.lookup_of_maps stdHash (h e (List.mem_cons_self _ _) hl)
      simp only [hl1, if_true, hc, hi, ne_eq, not_true_eq_false, if_false]
      exact ih (fun e1 he1 => h e1 (List.mem_cons_of_mem _ he1))
    · have hl1 : ¬ (e.isOccupied && !e.isDeleted) = true := hl
      simp only [hl1, if_false]
      exact ih (fun e1 he1 => h e1 (List.mem_cons_of_mem _ he1))

/-- A table that satisfies the invariant compares equal to itself. -/
theorem equals_self {d : HashDictionary K V} (hI : Inv stdHash d) :
    equals stdHash d d = .ok true := by
  unfold equals
  simp only [ne_eq, not_true_eq_false, if_false]
  apply equalsLoop_true stdHash hI
  intro e he hl
  exact (maps_iff_mem d e.key e.value).2 ⟨e, he, hl, rfl, rfl⟩

/-- Tables with different counters compare unequal. -/
theorem equals_of_count_ne {d other : HashDictionary K V}
    (h : d.elementCount ≠ other.elementCount) : equals stdHash d other = .ok false := by
  unfold equals
  simp [h]

/-- The loop of `operator&&`, when it returns: the result holds the pairs of
the accumulator and the Live entries visited whose key is Live in `other`. -/
theorem intersectionLoop_spec {other : HashDictionary K V} (hB : Inv stdHash other) :
    ∀ (rest : List (Entry K V)) (acc R : HashDictionary K V),
      Inv stdHash acc → NoTomb acc → rest.Pairwise DistinctLive →
      (∀ e ∈ rest, e.live = true → ¬ KeyLive acc e.key) →
      intersectionLoop stdHash other rest acc = .ok R →
      Inv stdHash R ∧ NoTomb R ∧
      R.elementCount = acc.elementCount + rest.countP (fun e => e.live && isLive other e.key) ∧
      ∀ k v, Maps R k v ↔
        Maps acc k v ∨ ∃ e ∈ rest, e.live = true ∧ e.key = k ∧ e.value = v ∧ KeyLive other k := by
  intro rest
  induction rest with
  | nil =>
    intro acc R hI hnt _ _ h
    injection h with h
    subst h
    exact ⟨hI, hnt, by simp, by simp⟩
  | cons e rest ih =>
    intro acc R hI hnt hpw hfresh h
    rw [List.pairwise_cons] at hpw
    obtain ⟨hhead, htail⟩ := hpw
    have hfresh1 : ∀ e1 ∈ rest, e1.live = true → ¬ KeyLive acc e1.key :=
      fun e1 he1 => hfresh e1 (List.mem_cons_of_mem _ he1)
    unfold intersectionLoop at h
    by_cases hl : e.live = true
    · have hl1 : (e.isOccupied && !e.isDeleted) = true := hl
      simp only [hl1, if_true] at h
      cases hc : contains stdHash other e.key with
      | error err => simp [hc] at h
      | ok b =>
        cases b with
        | true =>
          simp only [hc] at h
          have hkB : KeyLive other e.key := maps_of_contains stdHash hB.size_pos hc
          cases hins : insert stdHash acc e.key e.value with
          | error err => simp [hins] at h
          | ok acc1 =>
            simp only [hins] at h
            obtain ⟨hI1, hmaps1, _, hcnt1, hnt1, _⟩ := insert_spec stdHash hI hins
            have hnk : ¬ KeyLive acc e.key := hfresh e (List.mem_cons_self _ _) hl
            have hc1 := hcnt1 hnk
            obtain ⟨hI2, hnt2, hcnt2, hmaps2⟩ := ih acc1 R hI1 (hnt1 hnt) htail
              (by
                intro e1 he1 hl1 hkl
                obtain ⟨v, hm⟩ := hkl
                rcases (hmaps1 _ _).1 hm with ⟨hk, _⟩ | ⟨_, hm0⟩
                · exact hhead e1 he1 hl hl1 hk.symm
                · exact hfresh1 e1 he1 hl1 ⟨v, hm0⟩) h
            have hcp : (e :: rest).countP (fun e => e.live && isLive other e.key)
                = rest.countP (fun e => e.live && isLive other e.key) + 1 := by
              rw [List.countP_cons_of_pos]
              simp [hl, (isLive_iff other e.key).2 hkB]
            refine ⟨hI2, hnt2, by omega, ?_⟩
            intro k v
            rw [hmaps2, hmaps1]
            constructor
            · rintro ((⟨hk, hv⟩ | ⟨_, hm⟩) | ⟨e1, he1, h1⟩)
              · exact Or.inr ⟨e, List.mem_cons_self _ _, hl, hk.symm, hv.symm, hk ▸ hkB⟩
              · exact Or.inl hm
              · exact Or.inr ⟨e1, List.mem_cons_of_mem _ he1, h1⟩
            · rintro (hm | ⟨e1, he1, hle1, hk1, hv1, hkB1⟩)
              · refine Or.inl (Or.inr ⟨?_, hm⟩)
                intro hk
                exact hnk ⟨v, hk ▸ hm⟩
              · rcases List.mem_cons.1 he1 with rfl | he1
                · exact Or.inl (Or.inl ⟨hk1.symm, hv1.symm⟩)
                · exact Or.inr ⟨e1, he1, hle1, hk1, hv1, hkB1⟩
        | false =>
          simp only [hc] at h
          have hkB : ¬ KeyLive other e.key := hB.not_live_of_contains stdHash hc
          obtain ⟨hI2, hnt2, hcnt2, hmaps2⟩ := ih acc R hI hnt htail hfresh1 h
          have hcp : (e :: rest).countP (fun e => e.live && isLive other e.key)
              = rest.countP (fun e => e.live && isLive other e.key) := by
            rw [List.countP_cons_of_neg]
            simp [hl, (isLive_eq_false_iff other e.key).2 hkB]
          refine ⟨hI2, hnt2, by omega, ?_⟩
          intro k v
          rw [hmaps2]
          constructor
          · rintro (hm | ⟨e1, he1, h1⟩)
            · exact Or.inl hm
            · exact Or.inr ⟨e1, List.mem_cons_of_mem _ he1, h1⟩
          · rintro (hm | ⟨e1, he1, hle1, hk1, hv1, hkB1⟩)
            · exact Or.inl hm
            · rcases List.mem_cons.1 he1 with rfl | he1
              · exact absurd (hk1 ▸ hkB1) hkB
              · exact Or.inr ⟨e1, he1, hle1, hk1, hv1, hkB1⟩
    · have hnl : ¬ (e.isOccupied && !e.isDeleted) = true := hl
      simp only [hnl, if_false] at h
      obtain ⟨hI2, hnt2, hcnt2, hmaps2⟩ := ih acc R hI hnt htail hfresh1 h
      have hcp : (e :: rest).countP (fun e => e.live && isLive other e.key)
          = rest.countP (fun e => e.live && isLive other e.key) := by
        rw [List.countP_cons_of_neg]
        simp [hl]
      refine ⟨hI2, hnt2, by omega, ?_⟩
      intro k v
      rw [hmaps2]
      constructor
      · rintro (hm | ⟨e1, he1, h1⟩)
        · exact Or.inl hm
        · exact Or.inr ⟨e1, List.mem_cons_of_mem _ he1, h1⟩
      · rintro (hm | ⟨e1, he1, hle1, hk1, hv1, hkB1⟩)
        · exact Or.inl hm
        · rcases List.mem_cons.1 he1 with rfl | he1
          · exact absurd hle1 hl
          · exact Or.inr ⟨e1, he1, hle1, hk1, hv1, hkB1⟩

/-- The loop of `operator&&` returns when `contains` does on every Live entry
it visits. -/
theorem intersectionLoop_ok (other : HashDictionary K V) :
    ∀ (rest : List (Entry K V)) (acc : HashDictionary K V),
      Inv stdHash acc → NoTomb acc →
      (∀ e ∈ rest, e.live = true → ∃ b, contains stdHash other e.key = .ok b) →
      ∃ R, intersectionLoop stdHash other rest acc = .ok R := by
  intro rest
  induction rest with
  | nil => intro acc _ _ _; exact ⟨acc, rfl⟩
  | cons e rest ih =>
    intro acc hI hnt hc
    have hc1 : ∀ e1 ∈ rest, e1.live = true → ∃ b, contains stdHash other e1.key = .ok b :=
      fun e1 he1 => hc e1 (List.mem_cons_of_mem _ he1)
    unfold intersectionLoop
    by_cases hl : e.live = true
    · have hl1 : (e.isOccupied && !e.isDeleted) = true := hl
      simp only [hl1, if_true]
      obtain ⟨b, hb⟩ := hc e (List.mem_cons_self _ _) hl
      rw [hb]
      cases b with
      | true =>
        obtain ⟨acc1, hacc1⟩ := insert_ok stdHash hI hnt e.key e.value
        obtain ⟨hI1, _, _, _, hnt1, _⟩ := insert_spec stdHash hI hacc1
        simp only [hacc1]
        exact ih acc1 hI1 (hnt1 hnt) hc1
      | false =>
        simp only
        exact ih acc hI hnt hc1
    · have hnl : ¬ (e.isOccupied && !e.isDeleted) = true := hl
      simp only [hnl, if_false]
      exact ih acc hI hnt hc1

theorem noTomb_new : NoTomb (HashDictionary.new : HashDictionary K V) := noTomb_blank 16

theorem not_maps_new (k : K) (v : V) : ¬ Maps (HashDictionary.new : HashDictionary K V) k v :=
  not_maps_blank 16 k v

/-- `contains` on a freshly constructed table. -/
theorem contains_new (key : K) :
    contains stdHash (HashDictionary.new : HashDictionary K V) key = .ok false := by
  have hs : ∀ q, (HashDictionary.new : HashDictionary K V).slot q = Entry.empty :=
    fun q => slot_blank 16 q
  have h0 : ((HashDictionary.new : HashDictionary K V).slot 0).isOccupied = false := by
    rw [hs 0]
    rfl
  have hlen : 0 < (HashDictionary.new : HashDictionary K V).table.length :=
    (inv_new stdHash).size_pos
  obtain ⟨q, hq⟩ := findPosition_ok_of_empty stdHash
    (HashDictionary.new : HashDictionary K V) key 0 hlen h0
  unfold contains
  rw [hq]
  show Except.ok (((HashDictionary.new : HashDictionary K V).slot q).isOccupied &&
    !((HashDictionary.new : HashDictionary K V).slot q).isDeleted) = Except.ok false
  rw [hs q]
  rfl

end SetOps

/-! ## Sequences of calls -/

section Sequences

variable {K V : Type} [DecidableEq K] [DecidableEq V] [Inhabited K] [Inhabited V]
variable (stdHash : K → Nat)

open HashDictionary

/-- A sequence of `insert` calls on a table without Tombstones returns; the
pairs not overwritten by the sequence survive, and every key of the sequence
maps to the value of its last call. -/
theorem insertAll_spec :
    ∀ (ops : List (K × V)) (d0 : HashDictionary K V), Inv stdHash d0 → NoTomb d0 →
      ∃ d, insertAll stdHash d0 ops = .ok d ∧ Inv stdHash d ∧
        (∀ k v, Maps d0 k v → (∀ q ∈ ops, q.1 ≠ k) → Maps d k v) ∧
        (∀ pre k v post, ops = pre ++ (k, v) :: post → (∀ q ∈ post, q.1 ≠ k) → Maps d k v) := by
  intro ops
  induction ops with
  | nil =>
    intro d0 hI _
    refine ⟨d0, rfl, hI, fun k v hm _ => hm, ?_⟩
    intro pre k v post h
    cases pre <;> cases h
  | cons op ops ih =>
    intro d0 hI hnt
    obtain ⟨k0, v0⟩ := op
    obtain ⟨d1, hd1⟩ := insert_ok stdHash hI hnt k0 v0
    obtain ⟨hI1, hmaps1, _, _, hnt1, _⟩ := insert_spec stdHash hI hd1
    obtain ⟨d, hd, hId, hkeep, hlast⟩ := ih d1 hI1 (hnt1 hnt)
    refine ⟨d, ?_, hId, ?_, ?_⟩
    · unfold insertAll
      rw [hd1]
      exact hd
    · intro k v hm hne
      have hk0 : k0 ≠ k := hne (k0, v0) (List.mem_cons_self _ _)
      exact hkeep k v ((hmaps1 k v).2 (Or.inr ⟨Ne.symm hk0, hm⟩))
        (fun q hq => hne q (List.mem_cons_of_mem _ hq))
    · intro pre k v post h hne
      cases pre with
      | nil =>
        simp only [List.nil_append, List.cons.injEq, Prod.mk.injEq] at h
        obtain ⟨⟨hk, hv⟩, hops⟩ := h
        subst hk hv hops
        exact hkeep k0 v0 ((hmaps1 k0 v0).2 (Or.inl ⟨rfl, rfl⟩)) hne
      | cons p pre =>
        simp only [List.cons_append, List.cons.injEq] at h
        exact hlast pre k v post h.2 hne

/-- The loop of `operator&&` against a freshly constructed table inserts
nothing. -/
theorem intersectionLoop_new :
    ∀ (rest : List (Entry K V)) (acc : HashDictionary K V),
      intersectionLoop stdHash (HashDictionary.new : HashDictionary K V) rest acc = .ok acc := by
  intro rest
  induction rest with
  | nil => intro acc; rfl
  | cons e rest ih =>
    intro acc
    unfold intersectionLoop
    by_cases hl : (e.isOccupied && !e.isDeleted) = true
    · simp only [hl, if_true, contains_new]
      exact ih acc
    · simp only [hl, if_false]
      exact ih acc

theorem churn_reachable :
    ∀ (n : Nat) (d d1 : HashDictionary Nat Nat), Reachable idHash d → churn n d = .ok d1 →
      Reachable idHash d1 := by
  intro n
  induction n with
  | zero =>
    intro d d1 hr h
    injection h with h
    subst h
    exact hr
  | succ n ih =>
    intro d d1 hr h
    unfold churn at h
    cases hi : HashDictionary.insert idHash d 1 0 with
    | error e => simp [hi] at h
    | ok d2 =>
      simp only [hi] at h
      cases hrm : HashDictionary.remove idHash d2 1 with
      | error e => simp [hrm] at h
      | ok r =>
        obtain ⟨d3, b⟩ := r
        simp only [hrm] at h
        exact ih d3 d1 (Reachable.remove (Reachable.insert hr hi) hrm) h

theorem reachable_saturated : Reachable idHash saturated :=
  churn_reachable 16 HashDictionary.new saturated Reachable.fresh rfl

theorem reachable_nearlySaturated : Reachable idHash nearlySaturated :=
  churn_reachable 15 HashDictionary.new nearlySaturated Reachable.fresh rfl

theorem reachable_lastSlotTaken : Reachable idHash lastSlotTaken :=
  Reachable.insert reachable_nearlySaturated
    (rfl : HashDictionary.insert idHash nearlySaturated 1 7 = .ok lastSlotTaken)

theorem reachable_singleKey : Reachable idHash singleKey :=
  Reachable.insert Reachable.fresh
    (rfl : HashDictionary.insert idHash HashDictionary.new 2 0 = .ok singleKey)

end Sequences

/-! ## What holds when the calls return -/

section Returned

variable {K V : Type} [DecidableEq K] [DecidableEq V] [Inhabited K] [Inhabited V]
variable (stdHash : K → Nat)

open HashDictionary

/-- The size after `insert`, when it returns: unchanged for a Live key (and
then `insert` does return), one more otherwise. -/
theorem insert_size {d : HashDictionary K V} (hr : Reachable stdHash d) (key : K) (value : V) :
    (isLive d key = true → ∃ d1, insert stdHash d key value = .ok d1 ∧ d1.size = d.size ∧
      indexConst stdHash d1 key = .ok value) ∧
    (isLive d key = false → ∀ d1, insert stdHash d key value = .ok d1 →
      d1.size = d.size + 1) := by
  have hI := hr.inv stdHash
  constructor
  · intro hk
    have hkl := (isLive_iff d key).1 hk
    obtain ⟨d1, hd1⟩ := insert_ok_of_live stdHash hI hkl value
    obtain ⟨hI1, hmaps, hc, _⟩ := insert_spec stdHash hI hd1
    exact ⟨d1, hd1, hc hkl,
      (hI1.lookup_of_maps stdHash ((hmaps key value).2 (Or.inl ⟨rfl, rfl⟩))).2⟩
  · intro hk d1 hd1
    obtain ⟨_, _, _, hc, _⟩ := insert_spec stdHash hI hd1
    exact hc ((isLive_eq_false_iff d key).1 hk)

/-- After `insert(key, value)` returns, `remove(key)` returns true and the size
drops by one; afterwards `contains(key)` and a second `remove(key)`, when they
return, return false, and the second `remove` leaves the table as it is. -/
theorem remove_after_insert {d d1 : HashDictionary K V} (hr : Reachable stdHash d)
    {key : K} {value : V} (h : insert stdHash d key value = .ok d1) :
    ∃ d2, remove stdHash d1 key = .ok (d2, true) ∧ d2.size + 1 = d1.size ∧
      (∀ b, contains stdHash d2 key = .ok b → b = false) ∧
      (∀ d3 b, remove stdHash d2 key = .ok (d3, b) → b = false ∧ d3 = d2) := by
  have hI := hr.inv stdHash
  obtain ⟨hI1, hmaps, _⟩ := insert_spec stdHash hI h
  obtain ⟨p, hf, hp, hl, hk, _⟩ :=
    hI1.find_of_maps stdHash ((hmaps key value).2 (Or.inl ⟨rfl, rfl⟩))
  have hc : ((d1.slot p).isOccupied && !(d1.slot p).isDeleted) = true := hl
  have hrem : remove stdHash d1 key =
      .ok ({ table := d1.table.set p { d1.slot p with isDeleted := true },
             elementCount := d1.elementCount - 1 }, true) := by
    unfold remove
    rw [hf]
    simp only [hc, if_true]
  obtain ⟨hI2, _, ht, _⟩ := remove_spec stdHash hI1 hrem
  obtain ⟨_, hcnt, hmaps2⟩ := ht rfl
  have hnk : ¬ KeyLive _ key := fun ⟨v, hm⟩ => ((hmaps2 key v).1 hm).1 rfl
  refine ⟨_, hrem, hcnt, ?_, ?_⟩
  · intro b hb
    cases b with
    | false => rfl
    | true => exact absurd (maps_of_contains stdHash hI2.size_pos hb) hnk
  · intro d3 b hb
    obtain ⟨_, _, ht3, hf3⟩ := remove_spec stdHash hI2 hb
    cases b with
    | false => exact ⟨rfl, (hf3 rfl).1⟩
    | true => exact absurd (ht3 rfl).1 hnk

/-- What the loop of `operator==` returning `true` means. -/
theorem equalsLoop_true_maps {other : HashDictionary K V} (hlen : 0 < other.table.length) :
    ∀ (l : List (Entry K V)), equalsLoop stdHash other l = .ok true →
      ∀ e ∈ l, e.live = true → Maps other e.key e.value := by
  intro l
  induction l with
  | nil => intro _ e he; cases he
  | cons a rest ih =>
    intro h e he hl
    unfold equalsLoop at h
    by_cases hla : (a.isOccupied && !a.isDeleted) = true
    · simp only [hla, if_true] at h
      cases hc : contains stdHash other a.key with
      | error err => simp [hc] at h
      | ok b =>
        cases b with
        | false => simp [hc] at h
        | true =>
          simp only [hc] at h
          cases hi : indexConst stdHash other a.key with
          | error err => cases err <;> simp [hi] at h
          | ok v =>
            simp only [hi] at h
            by_cases hv : v = a.value
            · simp only [hv, ne_eq, not_true_eq_false, if_false] at h
              rcases List.mem_cons.1 he with rfl | he1
              · have := maps_of_indexConst stdHash hlen hi
                rwa [hv] at this
              · exact ih h e he1 hl
            · simp [hv] at h
    · simp only [hla, if_false] at h
      rcases List.mem_cons.1 he with rfl | he1
      · exact absurd hl hla
      · exact ih h e he1 hl

/-- `operator==` returns `true` exactly when the counters agree and every Live
pair of the left table is Live in the right one. -/
theorem equals_true_iff {A B : HashDictionary K V} (hB : Reachable stdHash B) :
    equals stdHash A B = .ok true ↔
      A.size = B.size ∧ ∀ e ∈ A.table, e.live = true → Maps B e.key e.value := by
  have hI := hB.inv stdHash
  unfold equals
  constructor
  · intro h
    by_cases hc : A.elementCount = B.elementCount
    · simp only [hc, ne_eq, not_true_eq_false, if_false] at h
      exact ⟨hc, equalsLoop_true_maps stdHash hI.size_pos A.table h⟩
    · simp [hc] at h
  · rintro ⟨hc, hm⟩
    have hc1 : A.elementCount = B.elementCount := hc
    simp only [hc1, ne_eq, not_true_eq_false, if_false]
    exact equalsLoop_true stdHash hI A.table hm

end Returned

/-! ## Errors, capacity and Tombstones on reachable tables -/

section Capacity

variable {K V : Type} [DecidableEq K] [DecidableEq V] [Inhabited K] [Inhabited V]
variable (stdHash : K → Nat)

open HashDictionary

/-- The only exception of `findPosition` is `tableFull`. -/
theorem probeLoop_error (d : HashDictionary K V) (key : K) (o : Nat) :
    ∀ (n x : Nat) (e : Err), probeLoop d key o n x = .error e →
      e = .tableFull ∨ e = .outOfFuel := by
  intro n
  induction n with
  | zero =>
    intro x e h
    unfold probeLoop at h
    injection h with h
    exact Or.inr h.symm
  | succ n ih =>
    intro x e h
    unfold probeLoop at h
    by_cases hs : stopAt (d.slot x) key = true
    · simp [hs] at h
    · simp only [hs] at h
      by_cases hw : (x + 1) % d.table.length = o
      · simp only [hw, if_true] at h
        injection h with h
        exact Or.inl h.symm
      · simp only [hw, if_false] at h
        exact ih _ _ h

theorem findPosition_error (d : HashDictionary K V) (key : K) (hlen : 0 < d.table.length)
    (e : Err) (h : findPosition stdHash d key = .error e) : e = .tableFull := by
  rcases probeLoop_error d key _ _ _ e h with h1 | h1
  · exact h1
  · subst h1
    exact absurd h (findPosition_fuel stdHash d key hlen)

/-- The read-only `operator[]` on a reachable table: the value of a Live key;
for a key that is not Live, `keyNotFound` when the probe meets an Empty slot and
`tableFull` when it does not. -/
theorem indexConst_reachable {d : HashDictionary K V} (hr : Reachable stdHash d) (key : K) :
    (isLive d key = true → ∃ v, Maps d key v ∧ indexConst stdHash d key = .ok v) ∧
    (isLive d key = false →
      indexConst stdHash d key = .error .keyNotFound ∨
      indexConst stdHash d key = .error .tableFull) := by
  have hI := hr.inv stdHash
  constructor
  · intro hk
    obtain ⟨v, hm⟩ := (isLive_iff d key).1 hk
    exact ⟨v, hm, (hI.lookup_of_maps stdHash hm).2⟩
  · intro hk
    have hnk := (isLive_eq_false_iff d key).1 hk
    unfold indexConst
    cases hf : findPosition stdHash d key with
    | error e =>
      right
      rw [findPosition_error stdHash d key hI.size_pos e hf]
    | ok pos =>
      left
      have hp := findPosition_lt stdHash d key pos hI.size_pos hf
      rcases (stopAt_iff _ _).1 (findPosition_stop stdHash d key pos hf) with ho | ⟨hl, hkk⟩
      · simp [ho]
      · exact absurd ⟨_, pos, hp, hl, hkk, rfl⟩ hnk

/-- The mutable `operator[]` on a reachable table, when it returns: for a key
that is not Live the table is the one `insert(key, V{})` returns, one element
larger, and the returned slot holds `key` with the value `V{}`; for a Live key
the table is unchanged and the returned slot holds the stored value. -/
theorem index_returns {d d1 : HashDictionary K V} (hr : Reachable stdHash d) {key : K}
    {pos : Nat} (h : index stdHash d key = .ok (d1, pos)) :
    contains stdHash d1 key = .ok true ∧
    indexConst stdHash d1 key = .ok (d1.slot pos).value ∧
    (isLive d key = false →
      insert stdHash d key default = .ok d1 ∧ d1.size = d.size + 1 ∧
      (d1.slot pos).value = default) ∧
    (isLive d key = true → d1 = d ∧ Maps d key (d.slot pos).value) := by
  have hI := hr.inv stdHash
  obtain ⟨hI1, hp, hl, hk, hcase⟩ := index_spec stdHash hI h
  have hm : Maps d1 key (d1.slot pos).value := ⟨pos, hp, hl, hk, rfl⟩
  obtain ⟨hc, hi⟩ := hI1.lookup_of_maps stdHash hm
  refine ⟨hc, hi, ?_, ?_⟩
  · intro hnl
    have hnk := (isLive_eq_false_iff d key).1 hnl
    rcases hcase with ⟨hkl, _⟩ | ⟨_, hins⟩
    · exact absurd hkl hnk
    · obtain ⟨_, hmaps, _, hcnt, _⟩ := insert_spec stdHash hI hins
      refine ⟨hins, hcnt hnk, ?_⟩
      exact hI1.maps_unique stdHash hm ((hmaps key default).2 (Or.inl ⟨rfl, rfl⟩))
  · intro hlv
    have hkl := (isLive_iff d key).1 hlv
    rcases hcase with ⟨_, hd⟩ | ⟨hnk, _⟩
    · subst hd
      exact ⟨rfl, hm⟩
    · exact absurd hkl hnk

/-- The number of slots after `insert`: doubled when the load-factor test
fires, unchanged otherwise; the counter grows by at most one. -/
theorem insert_length {d d1 : HashDictionary K V} (hI : Inv stdHash d) {key : K} {value : V}
    (h : insert stdHash d key value = .ok d1) :
    d1.table.length = (if needsResize d then d.table.length * 2 else d.table.length) ∧
    d1.elementCount ≤ d.elementCount + 1 := by
  rw [insert_eq stdHash d key value hI.size_pos] at h
  by_cases hr : needsResize d = true
  · simp only [hr, if_true] at h ⊢
    obtain ⟨d2, hd2, _, _, hlen2, hcnt2, _⟩ := resize_spec stdHash hI
    rw [hd2] at h
    obtain ⟨h1, h2⟩ := place_length_count stdHash h
    exact ⟨by omega, by omega⟩
  · simp only [hr] at h ⊢
    exact place_length_count stdHash h

/-- Invariant I2 and the shape of the capacity on a freshly constructed table. -/
theorem load_new :
    (∃ n, (HashDictionary.new : HashDictionary K V).table.length = 16 * 2 ^ n) ∧
    4 * (HashDictionary.new : HashDictionary K V).elementCount <
      3 * (HashDictionary.new : HashDictionary K V).table.length := by
  have hl : (HashDictionary.new : HashDictionary K V).table.length = 16 := by
    simp [HashDictionary.new, INITIAL_SIZE]
  have hc : (HashDictionary.new : HashDictionary K V).elementCount = 0 := rfl
  rw [hl, hc]
  exact ⟨⟨0, rfl⟩, by decide⟩

/-- Invariant I2 and the shape of the capacity are kept by `insert`. -/
theorem insert_load {d d1 : HashDictionary K V} {key : K} {value : V}
    (hr : Reachable stdHash d)
    (ih : (∃ n, d.table.length = 16 * 2 ^ n) ∧ 4 * d.elementCount < 3 * d.table.length)
    (hins : HashDictionary.insert stdHash d key value = .ok d1) :
    (∃ n, d1.table.length = 16 * 2 ^ n) ∧ 4 * d1.elementCount < 3 * d1.table.length := by
  obtain ⟨⟨n, hn⟩, hload⟩ := ih
  obtain ⟨hlen, hcnt⟩ := insert_length stdHash (hr.inv stdHash) hins
  have h16 : 16 ≤ d.table.length := by
    rw [hn]
    have : 0 < 2 ^ n := Nat.two_pow_pos n
    omega
  cases hres : needsResize d with
  | true =>
    rw [hres] at hlen
    simp only [if_true] at hlen
    refine ⟨⟨n + 1, by rw [hlen, hn, Nat.pow_succ]; ring⟩, by omega⟩
  | false =>
    rw [hres] at hlen
    simp only [Bool.false_eq_true, if_false] at hlen
    refine ⟨⟨n, by rw [hlen, hn]⟩, ?_⟩
    unfold needsResize at hres
    simp only [decide_eq_false_iff_not] at hres
    omega

/-- Invariant I2 and the shape of the capacity on every reachable table. -/
theorem Reachable.load {d : HashDictionary K V} (h : Reachable stdHash d) :
    (∃ n, d.table.length = 16 * 2 ^ n) ∧ 4 * d.elementCount < 3 * d.table.length := by
  induction h with
  | fresh => exact load_new
  | insert hr hins ih => exact insert_load stdHash hr ih hins
  | @remove d0 d2 key b hr hrem ih =>
    obtain ⟨_, hlen, ht, hf⟩ := remove_spec stdHash (hr.inv stdHash) hrem
    cases b with
    | true =>
      obtain ⟨_, hc, _⟩ := ht rfl
      rw [hlen]
      exact ⟨ih.1, by omega⟩
    | false =>
      rw [(hf rfl).1]
      exact ih
  | index hr hidx ih =>
    obtain ⟨_, _, _, _, hcase⟩ := index_spec stdHash (hr.inv stdHash) hidx
    rcases hcase with ⟨_, hd⟩ | ⟨_, hins⟩
    · rw [hd]; exact ih
    · exact insert_load stdHash hr ih hins
  | @assign d0 d2 key pos value hr hidx ih =>
    obtain ⟨_, _, _, _, hcase⟩ := index_spec stdHash (hr.inv stdHash) hidx
    have h1 : (∃ n, d2.table.length = 16 * 2 ^ n) ∧
        4 * d2.elementCount < 3 * d2.table.length := by
      rcases hcase with ⟨_, hd⟩ | ⟨_, hins⟩
      · rw [hd]; exact ih
      · exact insert_load stdHash hr ih hins
    have hl : (HashDictionary.assign d2 pos value).table.length = d2.table.length := by
      simp [HashDictionary.assign]
    have hc : (HashDictionary.assign d2 pos value).elementCount = d2.elementCount := rfl
    rw [hl, hc]
    exact h1
  | clear _ _ => exact load_new

/-- The slot returned by `findPosition` is the first exit of the probe order. -/
theorem findPosition_offset (d : HashDictionary K V) (key : K) (hlen : 0 < d.table.length)
    (q : Nat) (h : findPosition stdHash d key = .ok q) :
    ∃ i, i < d.table.length ∧
      q = (HashDictionary.hash stdHash d key + i) % d.table.length ∧
      ∀ j, j < i →
        stopAt (d.slot ((HashDictionary.hash stdHash d key + j) % d.table.length)) key = false := by
  have ho : HashDictionary.hash stdHash d key < d.table.length := Nat.mod_lt _ hlen
  have hq := findPosition_lt stdHash d key q hlen h
  have hs := findPosition_stop stdHash d key q h
  obtain ⟨i, hi, hiq⟩ := exists_offset d.table.length _ q ho hq
  have hex : ∃ m, m < d.table.length ∧
      stopAt (d.slot ((HashDictionary.hash stdHash d key + m) % d.table.length)) key = true :=
    ⟨i, hi, by rw [hiq]; exact hs⟩
  classical
  have hm := Nat.find_spec hex
  have hmin : ∀ j, j < Nat.find hex →
      stopAt (d.slot ((HashDictionary.hash stdHash d key + j) % d.table.length)) key = false := by
    intro j hj
    have := Nat.find_min hex hj
    simp only [not_and, Bool.not_eq_true] at this
    exact this (by omega)
  have hfound := probeLoop_found d key _ ho (Nat.find hex) 0 d.table.length (by omega) hm.1
    (fun j _ hj => hmin j (by omega)) (by simpa using hm.2)
  rw [Nat.add_zero, Nat.mod_eq_of_lt ho, Nat.zero_add] at hfound
  unfold findPosition at h
  rw [hfound] at h
  injection h with h
  exact ⟨Nat.find hex, hm.1, h.symm, hmin⟩

/-- `insert` without a resize leaves every Tombstone as it is. -/
theorem place_tomb {d d1 : HashDictionary K V} {key : K} {value : V}
    (h : place stdHash d key value = .ok d1) (p : Nat) (ht : (d.slot p).tomb = true) :
    d1.slot p = d.slot p := by
  obtain ⟨pos, _, ⟨ho, rfl⟩ | ⟨hl, _, rfl⟩⟩ := place_cases stdHash h
  · have hpp : pos ≠ p := by
      intro hpp
      subst hpp
      unfold Entry.tomb at ht
      simp [ho] at ht
    exact slot_set_other d pos p _ _ hpp
  · have hpp : pos ≠ p := by
      intro hpp
      subst hpp
      unfold Entry.tomb at ht
      simp [live_isDeleted hl] at ht
    exact slot_set_other d pos p _ _ hpp

/-- `remove` leaves every Tombstone as it is. -/
theorem remove_tomb {d d1 : HashDictionary K V} {key : K} {b : Bool}
    (h : remove stdHash d key = .ok (d1, b)) (p : Nat) (ht : (d.slot p).tomb = true) :
    d1.slot p = d.slot p := by
  obtain ⟨pos, _, ⟨hl, _, _, rfl⟩ | ⟨_, _, rfl⟩⟩ := remove_cases stdHash h
  · have hpp : pos ≠ p := by
      intro hpp
      subst hpp
      unfold Entry.tomb at ht
      simp [live_isDeleted hl] at ht
    exact slot_set_other d pos p _ _ hpp
  · rfl

end Capacity

/-! ## Counting Live slots -/

section Counting

variable {K V : Type} [DecidableEq K] [DecidableEq V] [Inhabited K] [Inhabited V]
variable (stdHash : K → Nat)

open HashDictionary

/-- Among slots with pairwise distinct Live keys, at most one is Live with a
given key. -/
theorem countP_key_le_one (k : K) :
    ∀ (l : List (Entry K V)), l.Pairwise DistinctLive →
      l.countP (fun e => e.live && decide (e.key = k)) ≤ 1 := by
  intro l
  induction l with
  | nil => intro _; simp
  | cons a t ih =>
    intro hpw
    rw [List.pairwise_cons] at hpw
    obtain ⟨hhead, htail⟩ := hpw
    by_cases ha : (a.live && decide (a.key = k)) = true
    · rw [List.countP_cons]
      simp only [ha, if_true]
      have hz : t.countP (fun e => e.live && decide (e.key = k)) = 0 := by
        rw [List.countP_eq_zero]
        intro b hb hbk
        simp only [Bool.and_eq_true, decide_eq_true_eq] at ha hbk
        exact hhead b hb ha.1 hbk.1 (by rw [ha.2, hbk.2])
      omega
    · rw [List.countP_cons]
      simp only [ha, Bool.false_eq_true, if_false, Nat.add_zero]
      exact ih htail

/-- A sequence of `insert` calls that returns leads from a reachable table to a
reachable table. -/
theorem insertAll_reachable :
    ∀ (ops : List (K × V)) (d d1 : HashDictionary K V), Reachable stdHash d →
      insertAll stdHash d ops = .ok d1 → Reachable stdHash d1 := by
  intro ops
  induction ops with
  | nil =>
    intro d d1 hr h
    injection h with h
    subst h
    exact hr
  | cons op ops ih =>
    intro d d1 hr h
    obtain ⟨k, v⟩ := op
    unfold insertAll at h
    cases hi : HashDictionary.insert stdHash d k v with
    | error e => simp [hi] at h
    | ok d2 =>
      simp only [hi] at h
      exact ih d2 d1 (Reachable.insert hr hi) h

end Counting

/-! ## Live pairs as a list -/

section Pairs

variable {K V : Type} [DecidableEq K] [DecidableEq V] [Inhabited K] [Inhabited V]
variable (stdHash : K → Nat)

open HashDictionary

theorem mem_livePairs (d : HashDictionary K V) (k : K) (v : V) :
    (k, v) ∈ livePairs d ↔ Maps d k v := by
  rw [maps_iff_mem]
  unfold livePairs
  simp only [List.mem_map, List.mem_filter, Prod.mk.injEq]
  constructor
  · rintro ⟨e, ⟨he, hl⟩, hk, hv⟩
    exact ⟨e, he, hl, hk, hv⟩
  · rintro ⟨e, he, hl, hk, hv⟩
    exact ⟨e, ⟨he, hl⟩, hk, hv⟩

theorem length_livePairs (d : HashDictionary K V) :
    (livePairs d).length = d.table.countP Entry.live := by
  unfold livePairs
  rw [List.length_map, List.countP_eq_length_filter]

/-- The Live pairs of slots with pairwise distinct Live keys have pairwise
distinct keys. -/
theorem pairwise_pairs_of_distinct :
    ∀ (l : List (Entry K V)), l.Pairwise DistinctLive →
      ((l.filter Entry.live).map (fun e => (e.key, e.value))).Pairwise
        (fun a b => a.1 ≠ b.1) := by
  intro l
  induction l with
  | nil => intro _; simp
  | cons a t ih =>
    intro hpw
    rw [List.pairwise_cons] at hpw
    obtain ⟨hhead, htail⟩ := hpw
    by_cases ha : a.live = true
    · rw [List.filter_cons_of_pos ha, List.map_cons, List.pairwise_cons]
      refine ⟨?_, ih htail⟩
      intro b hb
      simp only [List.mem_map, List.mem_filter] at hb
      obtain ⟨e, ⟨he, hl⟩, rfl⟩ := hb
      exact hhead e he ha hl
    · rw [List.filter_cons_of_neg ha]
      exact ih htail

theorem Inv.pairwise_livePairs {d : HashDictionary K V} (hI : Inv stdHash d) :
    (livePairs d).Pairwise (fun a b => a.1 ≠ b.1) :=
  pairwise_pairs_of_distinct d.table (hI.pairwise stdHash)

theorem Inv.nodup_livePairs {d : HashDictionary K V} (hI : Inv stdHash d) :
    (livePairs d).Nodup :=
  (hI.pairwise_livePairs stdHash).imp (fun h heq => h (by rw [heq]))

/-- The counter of a table that satisfies the invariant is the number of its
Live pairs. -/
theorem Inv.count_livePairs {d : HashDictionary K V} (hI : Inv stdHash d) :
    d.elementCount = (livePairs d).length := by
  rw [length_livePairs, hI.count_live]

/-- Tables with the same Live pairs hold them in some order. -/
theorem perm_livePairs {A B : HashDictionary K V} (hA : Inv stdHash A) (hB : Inv stdHash B)
    (h : ∀ k v, Maps A k v ↔ Maps B k v) : (livePairs A).Perm (livePairs B) := by
  rw [List.perm_ext_iff_of_nodup (hA.nodup_livePairs stdHash) (hB.nodup_livePairs stdHash)]
  rintro ⟨k, v⟩
  rw [mem_livePairs, mem_livePairs]
  exact h k v

/-- When the Live pairs of `A` are Live pairs of `B` and the counters agree,
the two tables have the same Live pairs. -/
theorem maps_eq_of_subset {A B : HashDictionary K V} (hA : Inv stdHash A) (hB : Inv stdHash B)
    (hc : A.elementCount = B.elementCount) (h : ∀ k v, Maps A k v → Maps B k v) :
    ∀ k v, Maps A k v ↔ Maps B k v := by
  have hsub : livePairs A ⊆ livePairs B := by
    rintro ⟨k, v⟩ hm
    rw [mem_livePairs] at hm ⊢
    exact h k v hm
  have hperm : (livePairs A).Perm (livePairs B) :=
    (List.subperm_of_subset (hA.nodup_livePairs stdHash) hsub).perm_of_length_le
      (by rw [← hA.count_livePairs stdHash, ← hB.count_livePairs stdHash, hc])
  intro k v
  rw [← mem_livePairs, ← mem_livePairs]
  exact hperm.mem_iff

/-- A sequence of `insert` calls with distinct keys that are not Live yet, on a
table without Tombstones: it returns, the counter grows by the number of calls
and the Live pairs gain exactly the pairs of the calls. -/
theorem insertAll_exact :
    ∀ (ops : List (K × V)) (acc : HashDictionary K V), Inv stdHash acc → NoTomb acc →
      ops.Pairwise (fun a b => a.1 ≠ b.1) → (∀ op ∈ ops, ¬ KeyLive acc op.1) →
      ∃ d, insertAll stdHash acc ops = .ok d ∧ Inv stdHash d ∧ NoTomb d ∧
        d.elementCount = acc.elementCount + ops.length ∧
        ∀ k v, Maps d k v ↔ Maps acc k v ∨ (k, v) ∈ ops := by
  intro ops
  induction ops with
  | nil =>
    intro acc hI hnt _ _
    exact ⟨acc, rfl, hI, hnt, rfl, by simp⟩
  | cons op ops ih =>
    intro acc hI hnt hpw hfresh
    obtain ⟨k0, v0⟩ := op
    rw [List.pairwise_cons] at hpw
    obtain ⟨hhead, htail⟩ := hpw
    obtain ⟨d1, hd1⟩ := insert_ok stdHash hI hnt k0 v0
    obtain ⟨hI1, hmaps1, _, hcnt1, hnt1, _⟩ := insert_spec stdHash hI hd1
    have hnk : ¬ KeyLive acc k0 := hfresh (k0, v0) (List.mem_cons_self _ _)
    have hc1 := hcnt1 hnk
    obtain ⟨d, hd, hId, hntd, hcnt, hmaps⟩ := ih d1 hI1 (hnt1 hnt) htail
      (by
        intro op hop hkl
        obtain ⟨v, hm⟩ := hkl
        rcases (hmaps1 _ _).1 hm with ⟨hk, _⟩ | ⟨_, hm0⟩
        · exact hhead op hop hk.symm
        · exact hfresh op (List.mem_cons_of_mem _ hop) ⟨v, hm0⟩)
    refine ⟨d, ?_, hId, hntd, ?_, ?_⟩
    · unfold insertAll
      rw [hd1]
      exact hd
    · rw [hcnt, hc1, List.length_cons]
      omega
    · intro k v
      rw [hmaps, hmaps1, List.mem_cons, Prod.mk.injEq]
      constructor
      · rintro ((⟨hk, hv⟩ | ⟨_, hm⟩) | hop)
        · exact Or.inr (Or.inl ⟨hk, hv⟩)
        · exact Or.inl hm
        · exact Or.inr (Or.inr hop)
      · rintro (hm | ⟨hk, hv⟩ | hop)
        · refine Or.inl (Or.inr ⟨?_, hm⟩)
          intro hk
          exact hnk ⟨v, hk ▸ hm⟩
        · exact Or.inl (Or.inl ⟨hk, hv⟩)
        · exact Or.inr hop

end Pairs

/-! ## `operator==` as a comparison of Live pairs -/

section Extensional

variable {K V : Type} [DecidableEq K] [DecidableEq V] [Inhabited K] [Inhabited V]
variable (stdHash : K → Nat)

open HashDictionary

/-- On reachable tables `operator==` returns `true` exactly when the two
tables have the same Live pairs. -/
theorem equals_iff_same_pairs {A B : HashDictionary K V} (hA : Reachable stdHash A)
    (hB : Reachable stdHash B) :
    equals stdHash A B = .ok true ↔ ∀ k v, Maps A k v ↔ Maps B k v := by
  have hIA := hA.inv stdHash
  have hIB := hB.inv stdHash
  rw [equals_true_iff stdHash hB]
  constructor
  · rintro ⟨hc, hm⟩
    apply maps_eq_of_subset stdHash hIA hIB hc
    intro k v hkv
    obtain ⟨e, he, hl, hk, hv⟩ := (maps_iff_mem A k v).1 hkv
    have := hm e he hl
    rwa [hk, hv] at this
  · intro h
    constructor
    · show A.elementCount = B.elementCount
      rw [hIA.count_livePairs stdHash, hIB.count_livePairs stdHash]
      exact (perm_livePairs stdHash hIA hIB h).length_eq
    · intro e he hl
      exact (h _ _).1 ((maps_iff_mem A e.key e.value).2 ⟨e, he, hl, rfl, rfl⟩)

theorem reachable_oneSeven : Reachable idHash oneSeven :=
  Reachable.insert Reachable.fresh
    (rfl : HashDictionary.insert idHash HashDictionary.new 1 7 = .ok oneSeven)

end Extensional

/-! ## The aggregate query -/

section Aggregate

variable {K : Type} [DecidableEq K] [Inhabited K]
variable (stdHash : K → Nat)

open HashDictionary

/-- The loop of `countWordsWithMinRepetitions` adds to its counter the number
of Live slots whose value, converted to `size_t`, is at least the threshold. -/
theorem countLoop_eq (t : Nat) :
    ∀ (l : List (Entry K Int)) (c : Nat),
      countLoop t l c = c + l.countP (fun e => e.live && decide (toSizeT e.value ≥ t)) := by
  intro l
  induction l with
  | nil => intro c; simp [countLoop]
  | cons e rest ih =>
    intro c
    unfold countLoop
    rw [List.countP_cons]
    by_cases h : (e.isOccupied && !e.isDeleted && decide (toSizeT e.value ≥ t)) = true
    · have h1 : (e.live && decide (toSizeT e.value ≥ t)) = true := h
      rw [if_pos h, if_pos h1, ih]
      omega
    · have h1 : ¬ (e.live && decide (toSizeT e.value ≥ t)) = true := h
      rw [if_neg h, if_neg h1, ih]
      omega

/-- `countWordsWithMinRepetitions` counts the Live slots whose value converted
to `size_t` is at least the threshold. -/
theorem countWords_eq (d : HashDictionary K Int) (t : Nat) :
    countWordsWithMinRepetitions d t =
      d.table.countP (fun e => e.live && decide (toSizeT e.value ≥ t)) := by
  unfold countWordsWithMinRepetitions
  rw [countLoop_eq, Nat.zero_add]

/-- On a value that is not negative the conversion to `size_t` changes
nothing. -/
theorem toSizeT_of_nonneg (v : Int) (h0 : 0 ≤ v) (h1 : v < 2 ^ 64) : (toSizeT v : Int) = v := by
  unfold toSizeT
  rw [Int.emod_eq_of_lt h0 h1]
  exact Int.toNat_of_nonneg h0

/-- When no Live value is negative, `countWordsWithMinRepetitions` is the
number of Live entries whose value is at least the threshold in the order of
the integers. -/
theorem countWords_of_nonneg (d : HashDictionary K Int) (t : Nat)
    (h : ∀ e ∈ d.table, e.live = true → 0 ≤ e.value ∧ e.value < 2 ^ 64) :
    countWordsWithMinRepetitions d t = countAtLeast d t := by
  rw [countWords_eq]
  unfold countAtLeast
  apply List.countP_congr
  intro e he
  simp only [Bool.and_eq_true, decide_eq_true_eq, ge_iff_le]
  constructor
  · rintro ⟨hl, ht⟩
    obtain ⟨h0, h1⟩ := h e he hl
    refine ⟨hl, ?_⟩
    rw [← toSizeT_of_nonneg e.value h0 h1]
    exact_mod_cast ht
  · rintro ⟨hl, ht⟩
    obtain ⟨h0, h1⟩ := h e he hl
    refine ⟨hl, ?_⟩
    rw [← toSizeT_of_nonneg e.value h0 h1] at ht
    exact_mod_cast ht

/-- `countWordsWithMinRepetitions` in terms of the Live pairs. -/
theorem countWords_livePairs (d : HashDictionary K Int) (t : Nat) :
    countWordsWithMinRepetitions d t =
      (livePairs d).countP (fun p => decide (toSizeT p.2 ≥ t)) := by
  rw [countWords_eq]
  unfold livePairs
  generalize d.table = l
  induction l with
  | nil => rfl
  | cons e rest ih =>
    rw [List.countP_cons]
    by_cases hl : e.live = true
    · rw [List.filter_cons_of_pos hl, List.map_cons, List.countP_cons, ih]
      simp [hl]
    · rw [List.filter_cons_of_neg hl, ih]
      simp [hl]

/-- The example of the tests, for every hash function: after
`insert("hello", 3); insert("world", 2); insert("test", 1)` on a fresh table the
count is 2 for the threshold 2 and 1 for the threshold 3. -/
theorem countWords_example (strHash : List Byte → Nat) :
    ∃ d, insertAll strHash HashDictionary.new wordCounts = .ok d ∧
      countWordsWithMinRepetitions d 2 = 2 ∧ countWordsWithMinRepetitions d 3 = 1 := by
  obtain ⟨d, hd, hI, _, _, hmaps⟩ := insertAll_exact strHash wordCounts HashDictionary.new
    (inv_new strHash) noTomb_new (by decide)
    (fun op _ hk => by obtain ⟨v, hm⟩ := hk; exact not_maps_new _ _ hm)
  have hperm : (livePairs d).Perm wordCounts := by
    rw [List.perm_ext_iff_of_nodup (hI.nodup_livePairs strHash) (by decide)]
    rintro ⟨k, v⟩
    rw [mem_livePairs, hmaps]
    constructor
    · rintro (hm | hm)
      · exact absurd hm (not_maps_new _ _)
      · exact hm
    · exact Or.inr
  refine ⟨d, hd, ?_, ?_⟩
  · rw [countWords_livePairs, hperm.countP_eq]
    decide
  · rw [countWords_livePairs, hperm.countP_eq]
    decide

/-- `countAtLeast` in terms of the Live pairs. -/
theorem countAtLeast_livePairs (d : HashDictionary K Int) (t : Nat) :
    countAtLeast d t = (livePairs d).countP (fun p => decide ((t : Int) ≤ p.2)) := by
  unfold countAtLeast livePairs
  generalize d.table = l
  induction l with
  | nil => rfl
  | cons e rest ih =>
    rw [List.countP_cons]
    by_cases hl : e.live = true
    · rw [List.filter_cons_of_pos hl, List.map_cons, List.countP_cons, ih]
      simp [hl]
    · rw [List.filter_cons_of_neg hl, ih]
      simp [hl]

/-- A negative value is counted for every hash function: after
`insert("hello", -1)` on a fresh table the call with threshold 1 returns 1,
while no Live value is at least 1. -/
theorem countWords_negative (strHash : List Byte → Nat) :
    ∃ d, insert strHash HashDictionary.new hello (-1) = .ok d ∧
      countWordsWithMinRepetitions d 1 = 1 ∧ countAtLeast d 1 = 0 := by
  obtain ⟨d, hd⟩ := insert_ok strHash (inv_new strHash) noTomb_new hello (-1 : Int)
  obtain ⟨hI, hmaps, _⟩ := insert_spec strHash (inv_new strHash) hd
  have hperm : (livePairs d).Perm [(hello, (-1 : Int))] := by
    rw [List.perm_ext_iff_of_nodup (hI.nodup_livePairs strHash) (by decide)]
    rintro ⟨k, v⟩
    rw [mem_livePairs, hmaps, List.mem_singleton, Prod.mk.injEq]
    constructor
    · rintro (h | ⟨_, hm⟩)
      · exact h
      · exact absurd hm (not_maps_new _ _)
    · exact Or.inl
  refine ⟨d, hd, ?_, ?_⟩
  · rw [countWords_livePairs, hperm.countP_eq]
    decide
  · rw [countAtLeast_livePairs, hperm.countP_eq]
    decide

theorem reachable_negativeWord : Reachable byteHash negativeWord :=
  Reachable.insert Reachable.fresh
    (rfl : HashDictionary.insert byteHash HashDictionary.new hello (-1) = .ok negativeWord)

end Aggregate

/-! ## Persistence -/

section Persistence

variable (strHash : List Byte → Nat)

open HashDictionary

theorem length_leBytes : ∀ (w n : Nat), (leBytes w n).length = w := by
  intro w
  induction w with
  | zero => intro n; rfl
  | succ w ih => intro n; simp [leBytes, ih]

/-- An unsigned integer that fits in `w` bytes is read back from its object
representation. -/
theorem ofLeBytes_leBytes : ∀ (w n : Nat), n < 256 ^ w → ofLeBytes (leBytes w n) = n := by
  intro w
  induction w with
  | zero =>
    intro n h
    simp only [Nat.pow_zero, Nat.lt_one_iff] at h
    subst h
    rfl
  | succ w ih =>
    intro n h
    have hdiv : n / 256 < 256 ^ w := by
      apply Nat.div_lt_of_lt_mul
      rw [Nat.pow_succ] at h
      omega
    show n % 256 + 256 * ofLeBytes (leBytes w (n / 256)) = n
    rw [ih (n / 256) hdiv]
    exact Nat.mod_add_div n 256

theorem length_intBytes (v : Int) : (intBytes v).length = 4 := length_leBytes 4 _

/-- An `int` is read back from its object representation. -/
theorem ofIntBytes_intBytes (v : Int) (h0 : -2 ^ 31 ≤ v) (h1 : v < 2 ^ 31) :
    ofIntBytes (intBytes v) = v := by
  unfold ofIntBytes intBytes
  have hlt : (v % 2 ^ 32).toNat < 256 ^ 4 := by
    have := Int.emod_lt_of_pos v (show (0 : Int) < 2 ^ 32 by norm_num)
    have := Int.emod_nonneg v (show (2 ^ 32 : Int) ≠ 0 by norm_num)
    omega
  rw [ofLeBytes_leBytes 4 _ hlt]
  have hnn := Int.emod_nonneg v (show (2 ^ 32 : Int) ≠ 0 by norm_num)
  have hcast : (((v % 2 ^ 32).toNat : Nat) : Int) = v % 2 ^ 32 := Int.toNat_of_nonneg hnn
  by_cases hv : 0 ≤ v
  · have hm : v % 2 ^ 32 = v := Int.emod_eq_of_lt hv (by omega)
    have hsmall : (v % 2 ^ 32).toNat < 2 ^ 31 := by omega
    rw [if_pos hsmall, hcast, hm]
  · have hm : v % 2 ^ 32 = v + 2 ^ 32 := by
      have : (v + 2 ^ 32) % 2 ^ 32 = v + 2 ^ 32 := Int.emod_eq_of_lt (by omega) (by omega)
      rw [← this, Int.add_emod_self]
    have hbig : ¬ (v % 2 ^ 32).toNat < 2 ^ 31 := by omega
    rw [if_neg hbig, hcast, hm]
    omega

theorem readBytes_append (xs rest : List Byte) :
    readBytes xs.length (xs ++ rest) = some (xs, rest) := by
  unfold readBytes
  rw [if_pos (by simp), List.take_left, List.drop_left]

/-- The loop of `loadFromFile` on the bytes written by the loop of
`saveToFile` makes the calls `insert(key, value)` for the Live slots, in slot
order. -/
theorem loadLoop_saveLoop :
    ∀ (l : List (Entry (List Byte) Int)) (d d1 : HashDictionary (List Byte) Int),
      (∀ e ∈ l, e.live = true →
        e.key.length < 2 ^ 64 ∧ -2 ^ 31 ≤ e.value ∧ e.value < 2 ^ 31) →
      insertAll strHash d ((l.filter Entry.live).map (fun e => (e.key, e.value))) = .ok d1 →
      loadLoop strHash (l.countP Entry.live) (saveLoop l) d = .ok d1 := by
  intro l
  induction l with
  | nil =>
    intro d d1 _ h
    exact congrArg _ (by injection h)
  | cons e rest ih =>
    intro d d1 hfit h
    have hfit1 : ∀ e1 ∈ rest, e1.live = true →
        e1.key.length < 2 ^ 64 ∧ -2 ^ 31 ≤ e1.value ∧ e1.value < 2 ^ 31 :=
      fun e1 he1 => hfit e1 (List.mem_cons_of_mem _ he1)
    by_cases hl : e.live = true
    · obtain ⟨hk, hv0, hv1⟩ := hfit e (List.mem_cons_self _ _) hl
      rw [List.filter_cons_of_pos hl, List.map_cons] at h
      unfold insertAll at h
      cases hins : HashDictionary.insert strHash d e.key e.value with
      | error err => simp [hins] at h
      | ok d2 =>
        simp only [hins] at h
        have hcp : (e :: rest).countP Entry.live = rest.countP Entry.live + 1 :=
          List.countP_cons_of_pos _ _ hl
        have hsave : saveLoop (e :: rest) =
            leBytes 8 e.key.length ++ (e.key ++ (intBytes e.value ++ saveLoop rest)) := by
          have hl1 : (e.isOccupied && !e.isDeleted) = true := hl
          simp only [saveLoop, hl1, if_true, List.append_assoc]
        have h8 : readBytes 8 (leBytes 8 e.key.length ++
            (e.key ++ (intBytes e.value ++ saveLoop rest))) =
            some (leBytes 8 e.key.length, e.key ++ (intBytes e.value ++ saveLoop rest)) := by
          have := readBytes_append (leBytes 8 e.key.length)
            (e.key ++ (intBytes e.value ++ saveLoop rest))
          rwa [length_leBytes] at this
        have hsz : ofLeBytes (leBytes 8 e.key.length) = e.key.length :=
          ofLeBytes_leBytes 8 _ (by
            have : (256 : Nat) ^ 8 = 2 ^ 64 := by norm_num
            omega)
        have h4 : readBytes 4 (intBytes e.value ++ saveLoop rest) =
            some (intBytes e.value, saveLoop rest) := by
          have := readBytes_append (intBytes e.value) (saveLoop rest)
          rwa [length_intBytes] at this
        rw [hcp, hsave]
        unfold loadLoop
        simp only [h8, hsz, readBytes_append, h4, ofIntBytes_intBytes e.value hv0 hv1, hins]
        exact ih d2 d1 hfit1 h
    · rw [List.filter_cons_of_neg hl] at h
      have hcp : (e :: rest).countP Entry.live = rest.countP Entry.live :=
        List.countP_cons_of_neg _ _ hl
      have hsave : saveLoop (e :: rest) = saveLoop rest := by
        have hl1 : (e.isOccupied && !e.isDeleted) = false := by
          simpa [Entry.live] using hl
        simp only [saveLoop, hl1, Bool.false_eq_true, if_false]
      rw [hcp, hsave]
      exact ih d d1 hfit1 h

/-- `loadFromFile` on the bytes written by `saveToFile` for a reachable table
whose sizes fit `size_t` and whose values are `int`s returns a table with the
same Live pairs and the same counter. -/
theorem load_save_spec {T : HashDictionary (List Byte) Int} (hT : Reachable strHash T)
    (hsize : T.table.length < 2 ^ 64)
    (hfit : ∀ e ∈ T.table, e.live = true →
      e.key.length < 2 ^ 64 ∧ -2 ^ 31 ≤ e.value ∧ e.value < 2 ^ 31)
    (receiver : HashDictionary (List Byte) Int) :
    ∃ L, loadFromFile strHash receiver (saveToFile T) = .ok L ∧ Reachable strHash L ∧
      L.elementCount = T.elementCount ∧ ∀ k v, Maps L k v ↔ Maps T k v := by
  have hI := hT.inv strHash
  obtain ⟨L, hL, _, _, hcnt, hmaps⟩ := insertAll_exact strHash (livePairs T) HashDictionary.new
    (inv_new strHash) noTomb_new (hI.pairwise_livePairs strHash)
    (fun op _ hk => by obtain ⟨v, hm⟩ := hk; exact not_maps_new _ _ hm)
  have hcl : T.table.countP Entry.live ≤ T.table.length := List.countP_le_length _
  have hcount : ofLeBytes (leBytes 8 T.elementCount) = T.table.countP Entry.live := by
    rw [hI.count_live]
    exact ofLeBytes_leBytes 8 _ (by
      have : (256 : Nat) ^ 8 = 2 ^ 64 := by norm_num
      omega)
  refine ⟨L, ?_, insertAll_reachable strHash _ _ L Reachable.fresh hL, ?_, ?_⟩
  · unfold loadFromFile saveToFile
    have h8 := readBytes_append (leBytes 8 T.elementCount) (saveLoop T.table)
    rw [length_leBytes] at h8
    simp only [h8, hcount]
    exact loadLoop_saveLoop strHash T.table _ L hfit hL
  · rw [hcnt, hI.count_livePairs strHash]
    show 0 + _ = _
    rw [Nat.zero_add]
  · intro k v
    rw [hmaps, mem_livePairs]
    constructor
    · rintro (hm | hm)
      · exact absurd hm (not_maps_new _ _)
      · exact hm
    · exact Or.inr

theorem reachable_wordsAfterRemove : Reachable byteHash wordsAfterRemove :=
  Reachable.remove
    (Reachable.insert
      (Reachable.insert Reachable.fresh
        (rfl : HashDictionary.insert byteHash HashDictionary.new hello 3 = .ok wordsOne))
      (rfl : HashDictionary.insert byteHash wordsOne world (-2) = .ok wordsTwo))
    (rfl : HashDictionary.remove byteHash wordsTwo hello = .ok (wordsAfterRemove, true))

end Persistence

/-! ## Tombstones fill the table, for every key type and hash function -/

section Saturation

variable {K V : Type} [DecidableEq K] [DecidableEq V] [Inhabited K] [Inhabited V]
variable (stdHash : K → Nat)

open HashDictionary

/-- When no slot passes the exit test, `findPosition` throws `tableFull`. -/
theorem findPosition_full (d : HashDictionary K V) (key : K) (hlen : 0 < d.table.length)
    (h : ∀ p, p < d.table.length → stopAt (d.slot p) key = false) :
    findPosition stdHash d key = .error .tableFull := by
  cases hf : findPosition stdHash d key with
  | error e => rw [findPosition_error stdHash d key hlen e hf]
  | ok q =>
    have h1 := findPosition_stop stdHash d key q hf
    rw [h (q) (findPosition_lt stdHash d key q hlen hf)] at h1
    cases h1

/-- A table whose counter is 0 has no Live slot. -/
theorem Inv.no_live_of_count_zero {d : HashDictionary K V} (hI : Inv stdHash d)
    (hc : d.elementCount = 0) (p : Nat) (hp : p < d.table.length) :
    (d.slot p).live = false := by
  have h0 : d.table.countP Entry.live = 0 := by rw [← hI.count_live, hc]
  rw [List.countP_eq_zero] at h0
  have hm : d.slot p ∈ d.table := (mem_iff_getD Entry.empty d.table _).2 ⟨p, hp, rfl⟩
  simpa using h0 _ hm

/-- One round `insert(key, value); remove(key)` on a table with no Live slot
and a slot that is not occupied: both calls return, no slot is Live afterwards
and one more slot is occupied. -/
theorem churn_round {d : HashDictionary K V} (hI : Inv stdHash d) (hc : d.elementCount = 0)
    (h2 : 2 ≤ d.table.length)
    (hroom : d.table.countP (fun e => e.isOccupied) < d.table.length) (key : K) (value : V) :
    ∃ d1 d2, insert stdHash d key value = .ok d1 ∧ remove stdHash d1 key = .ok (d2, true) ∧
      Inv stdHash d2 ∧ d2.elementCount = 0 ∧ d2.table.length = d.table.length ∧
      d2.table.countP (fun e => e.isOccupied) = d.table.countP (fun e => e.isOccupied) + 1 := by
  have hnr : needsResize d = false := by
    unfold needsResize
    simp only [decide_eq_false_iff_not]
    omega
  obtain ⟨a, ha, hao⟩ := exists_not_of_countP_lt (fun e : Entry K V => e.isOccupied) d.table hroom
  obtain ⟨p, hp, hpa⟩ := (mem_iff_getD Entry.empty d.table a).1 ha
  have hpe : (d.slot p).isOccupied = false := by
    have : d.slot p = a := hpa
    rw [this]
    exact hao
  obtain ⟨q, hq⟩ := findPosition_ok_of_empty stdHash d key p hp hpe
  obtain ⟨d1, hd1⟩ := place_ok_of_find stdHash value hq
  have hins : insert stdHash d key value = .ok d1 := by
    rw [insert_eq stdHash d key value hI.size_pos, hnr]
    simpa using hd1
  obtain ⟨hI1, hlen1, hmaps1, _, _, _⟩ := place_spec stdHash hI hd1
  have hocc1 : d1.table.countP (fun e => e.isOccupied) =
      d.table.countP (fun e => e.isOccupied) + 1 ∧ d1.elementCount = 1 := by
    obtain ⟨pos, hf, ⟨ho, rfl⟩ | ⟨hl, _, _⟩⟩ := place_cases stdHash hd1
    · have hpos := findPosition_lt stdHash d key pos hI.size_pos hf
      have := countP_set_add (fun e : Entry K V => e.isOccupied) Entry.empty d.table pos
        { key := key, value := value, isOccupied := true, isDeleted := false } hpos
      have ho1 : (d.table.getD pos Entry.empty).isOccupied = false := ho
      simp only [ho1, Bool.false_eq_true, if_false, if_true, Nat.add_zero] at this
      exact ⟨this, by simp [hc]⟩
    · have hpos := findPosition_lt stdHash d key pos hI.size_pos hf
      rw [hI.no_live_of_count_zero stdHash hc pos hpos] at hl
      cases hl
  obtain ⟨r, hf, hr, hl, hk, _⟩ :=
    hI1.find_of_maps stdHash ((hmaps1 key value).2 (Or.inl ⟨rfl, rfl⟩))
  have hcond : ((d1.slot r).isOccupied && !(d1.slot r).isDeleted) = true := hl
  have hrem : remove stdHash d1 key =
      .ok ({ table := d1.table.set r { d1.slot r with isDeleted := true },
             elementCount := d1.elementCount - 1 }, true) := by
    unfold remove
    rw [hf]
    simp only [hcond, if_true]
  obtain ⟨hI2, hlen2, _, _⟩ := remove_spec stdHash hI1 hrem
  refine ⟨d1, _, hins, hrem, hI2, ?_, ?_, ?_⟩
  · show d1.elementCount - 1 = 0
    rw [hocc1.2]
  · rw [hlen2, hlen1]
  · have ho0 : (d1.slot r).isOccupied = true := live_isOccupied hl
    have ho1 : (d1.table.getD r Entry.empty).isOccupied = true := ho0
    have key_count : ∀ e2 : Entry K V, e2.isOccupied = true →
        (d1.table.set r e2).countP (fun e => e.isOccupied) =
          d1.table.countP (fun e => e.isOccupied) := by
      intro e2 ho2
      have h := countP_set_add (fun e : Entry K V => e.isOccupied) Entry.empty d1.table r e2 hr
      simp only [ho1, ho2, if_true] at h
      omega
    show (d1.table.set r { d1.slot r with isDeleted := true }).countP
      (fun e => e.isOccupied) = _
    rw [key_count { d1.slot r with isDeleted := true } ho0, hocc1.1]

/-- The rounds of `churnWith` all return while slots that are not occupied
remain; each round occupies one more slot and leaves no slot Live. -/
theorem churnWith_spec (key : K) (value : V) :
    ∀ (n : Nat) (d : HashDictionary K V), Reachable stdHash d → d.elementCount = 0 →
      2 ≤ d.table.length →
      d.table.countP (fun e => e.isOccupied) + n ≤ d.table.length →
      ∃ d1, churnWith stdHash key value n d = .ok d1 ∧ Reachable stdHash d1 ∧
        d1.elementCount = 0 ∧ d1.table.length = d.table.length ∧
        d1.table.countP (fun e => e.isOccupied) =
          d.table.countP (fun e => e.isOccupied) + n := by
  intro n
  induction n with
  | zero =>
    intro d hr hc _ _
    exact ⟨d, rfl, hr, hc, rfl, rfl⟩
  | succ n ih =>
    intro d hr hc h2 hroom
    obtain ⟨d1, d2, hins, hrem, hI2, hc2, hlen2, hocc2⟩ :=
      churn_round stdHash (hr.inv stdHash) hc h2 (by omega) key value
    obtain ⟨d3, hd3, hr3, hc3, hlen3, hocc3⟩ :=
      ih d2 (Reachable.remove (Reachable.insert hr hins) hrem) hc2 (by omega) (by omega)
    refine ⟨d3, ?_, hr3, hc3, by omega, by omega⟩
    unfold churnWith
    simp only [hins, hrem]
    exact hd3

/-- For every key type, hash function, key and value, sixteen rounds of
`insert(key, value); remove(key)` on a freshly constructed table return and
reach a table of size 0 on which `findPosition` throws `tableFull` for every
key. -/
theorem tombstone_saturation (key : K) (value : V) :
    ∃ d, churnWith stdHash key value 16 HashDictionary.new = .ok d ∧ Reachable stdHash d ∧
      d.size = 0 ∧ d.table.length = 16 ∧
      ∀ k, findPosition stdHash d k = .error .tableFull := by
  have hlen : (HashDictionary.new : HashDictionary K V).table.length = 16 := by
    simp [HashDictionary.new, INITIAL_SIZE]
  have hocc : (HashDictionary.new : HashDictionary K V).table.countP
      (fun e => e.isOccupied) = 0 := by
    rw [List.countP_eq_zero]
    intro a ha
    have : a = Entry.empty := List.eq_of_mem_replicate ha
    rw [this]
    simp [Entry.empty]
  obtain ⟨d, hd, hr, hc, hl, ho⟩ := churnWith_spec stdHash key value 16 HashDictionary.new
    Reachable.fresh rfl (by rw [hlen]; decide) (by rw [hlen, hocc])
  rw [hlen] at hl
  rw [hocc, Nat.zero_add] at ho
  refine ⟨d, hd, hr, hc, hl, ?_⟩
  intro k
  have hI := hr.inv stdHash
  apply findPosition_full stdHash d k hI.size_pos
  intro p hp
  have hall : d.table.countP (fun e => e.isOccupied) = d.table.length := by rw [ho, hl]
  rw [List.countP_eq_length] at hall
  have hm : d.slot p ∈ d.table := (mem_iff_getD Entry.empty d.table _).2 ⟨p, hp, rfl⟩
  refine (stopAt_eq_false_iff _ _).2 ⟨hall _ hm, ?_⟩
  intro hlive
  rw [hI.no_live_of_count_zero stdHash hc p hp] at hlive
  cases hlive

end Saturation

/-! ## The claims -/

section Claims

variable {K V : Type} [DecidableEq K] [DecidableEq V] [Inhabited K] [Inhabited V]

open HashDictionary

/-- C1: on every reachable table, once `insert(key, value)` returns,
`contains(key)` is true and the read-only `operator[]` returns `value`. -/
theorem insert_then_lookup (stdHash : K → Nat) {d d1 : HashDictionary K V}
    (hr : Reachable stdHash d) (key : K) (value : V)
    (h : insert stdHash d key value = .ok d1) :
    contains stdHash d1 key = .ok true ∧ indexConst stdHash d1 key = .ok value := by
  obtain ⟨hI1, hmaps, _⟩ := insert_spec stdHash (hr.inv stdHash) h
  exact hI1.lookup_of_maps stdHash ((hmaps key value).2 (Or.inl ⟨rfl, rfl⟩))

/-- C1 at a table with fifteen Tombstones. -/
theorem insert_then_lookup_witness :
    Reachable idHash nearlySaturated ∧
    insert idHash nearlySaturated 1 7 = .ok lastSlotTaken ∧
    contains idHash lastSlotTaken 1 = .ok true ∧ indexConst idHash lastSlotTaken 1 = .ok 7 :=
  ⟨reachable_nearlySaturated, rfl, insert_then_lookup idHash reachable_nearlySaturated 1 7 rfl⟩

/-- C2 fails on the code: the table of sixteen Tombstones is reachable, key 2 is
not Live in it and its size is 0, yet `insert(2, 5)` throws `tableFull` instead
of raising the size to 1. -/
theorem insert_absent_key_saturated :
    Reachable idHash saturated ∧ isLive saturated 2 = false ∧ saturated.size = 0 ∧
    insert idHash saturated 2 5 = .error .tableFull :=
  ⟨reachable_saturated, rfl, rfl, rfl⟩

/-- C3 fails on the code: on the reachable table with fifteen Tombstones,
`insert(1, 7)` returns and `remove(1)` returns true, but afterwards
`contains(1)` and a second `remove(1)` throw `tableFull` instead of returning
false. -/
theorem contains_after_remove_saturated :
    Reachable idHash nearlySaturated ∧
    insert idHash nearlySaturated 1 7 = .ok lastSlotTaken ∧
    remove idHash lastSlotTaken 1 = .ok (lastSlotFreed, true) ∧
    contains idHash lastSlotFreed 1 = .error .tableFull ∧
    remove idHash lastSlotFreed 1 = .error .tableFull :=
  ⟨reachable_nearlySaturated, rfl, rfl, rfl, rfl⟩

/-- C4: every finite sequence of `insert` calls on a freshly constructed table
returns (no call throws), and afterwards every inserted key is contained and
maps to the value of its last call. -/
theorem insert_sequence_total (stdHash : K → Nat) (ops : List (K × V)) :
    ∃ d, insertAll stdHash HashDictionary.new ops = .ok d ∧
      ∀ pre k v post, ops = pre ++ (k, v) :: post → (∀ q ∈ post, q.1 ≠ k) →
        contains stdHash d k = .ok true ∧ indexConst stdHash d k = .ok v := by
  obtain ⟨d, hd, hI, _, hlast⟩ :=
    insertAll_spec stdHash ops HashDictionary.new (inv_new stdHash) noTomb_new
  exact ⟨d, hd, fun pre k v post h hne => hI.lookup_of_maps stdHash (hlast pre k v post h hne)⟩

/-- C4 at thirteen calls with colliding keys, the last one overwriting the
first and crossing the load factor. -/
theorem insert_sequence_total_witness :
    ∃ d, insertAll idHash HashDictionary.new collidingInserts = .ok d ∧
      (contains idHash d 1 = .ok true ∧ indexConst idHash d 1 = .ok 12) ∧
      (contains idHash d 17 = .ok true ∧ indexConst idHash d 17 = .ok 1) := by
  obtain ⟨d, hd, h⟩ := insert_sequence_total idHash collidingInserts
  refine ⟨d, hd, ?_, ?_⟩
  · exact h [(1, 0), (17, 1), (33, 2), (49, 3), (65, 4), (81, 5), (97, 6), (113, 7),
      (129, 8), (145, 9), (161, 10), (177, 11)] 1 12 [] rfl (by simp)
  · exact h [(1, 0)] 17 1 [(33, 2), (49, 3), (65, 4), (81, 5), (97, 6), (113, 7),
      (129, 8), (145, 9), (161, 10), (177, 11), (1, 12)] rfl (by decide)

/-- C5 fails on the code: sixteen rounds of `insert(1, 0); remove(1)` on a
fresh table reach a table whose sixteen slots are all occupied, and on it
`insert`, `remove`, `contains` and the read-only `operator[]` throw
`tableFull`. -/
theorem tableFull_reachable :
    churn 16 HashDictionary.new = .ok saturated ∧ Reachable idHash saturated ∧
    (∀ p, p < 16 → (saturated.slot p).isOccupied = true) ∧
    insert idHash saturated 1 0 = .error .tableFull ∧
    remove idHash saturated 1 = .error .tableFull ∧
    contains idHash saturated 1 = .error .tableFull ∧
    indexConst idHash saturated 1 = .error .tableFull :=
  ⟨rfl, reachable_saturated, by decide, rfl, rfl, rfl, rfl⟩

/-- C6 fails on the code: for the reachable tables `singleKey` (key 2 Live) and
`lastSlotTaken` (key 1 Live, fifteen Tombstones), both of size 1, `operator==`
propagates `tableFull` instead of returning false. -/
theorem equals_propagates_tableFull :
    Reachable idHash singleKey ∧ Reachable idHash lastSlotTaken ∧
    singleKey.size = lastSlotTaken.size ∧
    equals idHash singleKey lastSlotTaken = .error .tableFull :=
  ⟨reachable_singleKey, reachable_lastSlotTaken, rfl, rfl⟩

/-- C7: for reachable `A` and `B`, when `A && B` returns `R`: a key is Live in
`R` iff it is Live in `A` and in `B`, the value `R` holds for it is the one `A`
holds, and the size of `R` is the number of Live slots of `A` whose key is Live
in `B`; and `A && HashDictionary()` returns a table of size 0 for every `A`. -/
theorem intersection_live_pairs (stdHash : K → Nat) {A B : HashDictionary K V}
    (hA : Reachable stdHash A) (hB : Reachable stdHash B) :
    (∀ R, intersection stdHash A B = .ok R →
      (∀ k, isLive R k = true ↔ (isLive A k = true ∧ isLive B k = true)) ∧
      (∀ k, isLive R k = true →
        ∃ v, indexConst stdHash R k = .ok v ∧ indexConst stdHash A k = .ok v) ∧
      R.size = A.table.countP (fun e => e.live && isLive B e.key)) ∧
    (∃ R0, intersection stdHash A HashDictionary.new = .ok R0 ∧ R0.size = 0) := by
  have hIA := hA.inv stdHash
  have hIB := hB.inv stdHash
  refine ⟨?_, HashDictionary.new, intersectionLoop_new stdHash A.table HashDictionary.new, rfl⟩
  intro R h
  obtain ⟨hIR, _, hcnt, hmaps⟩ := intersectionLoop_spec stdHash hIB A.table
    HashDictionary.new R (inv_new stdHash) noTomb_new (hIA.pairwise stdHash)
    (fun e _ _ hk => by obtain ⟨v, hm⟩ := hk; exact not_maps_new _ _ hm) h
  have hmaps1 : ∀ k v, Maps R k v ↔ Maps A k v ∧ KeyLive B k := by
    intro k v
    rw [hmaps, maps_iff_mem A]
    constructor
    · rintro (hm | ⟨e, he, hl, hk, hv, hkB⟩)
      · exact absurd hm (not_maps_new _ _)
      · exact ⟨⟨e, he, hl, hk, hv⟩, hkB⟩
    · rintro ⟨⟨e, he, hl, hk, hv⟩, hkB⟩
      exact Or.inr ⟨e, he, hl, hk, hv, hkB⟩
  refine ⟨?_, ?_, ?_⟩
  · intro k
    rw [isLive_iff, isLive_iff, isLive_iff]
    constructor
    · rintro ⟨v, hm⟩
      exact ⟨⟨v, ((hmaps1 k v).1 hm).1⟩, ((hmaps1 k v).1 hm).2⟩
    · rintro ⟨⟨v, hm⟩, hkB⟩
      exact ⟨v, (hmaps1 k v).2 ⟨hm, hkB⟩⟩
  · intro k hk
    obtain ⟨v, hm⟩ := (isLive_iff R k).1 hk
    exact ⟨v, (hIR.lookup_of_maps stdHash hm).2,
      (hIA.lookup_of_maps stdHash ((hmaps1 k v).1 hm).1).2⟩
  · show R.elementCount = _
    rw [hcnt]
    show 0 + _ = _
    rw [Nat.zero_add]

/-- C7 at a table with Tombstones holding `1 ↦ 7` and a table holding `1 ↦ 9`:
the result holds `1 ↦ 7`. -/
theorem intersection_live_pairs_witness :
    Reachable idHash lastSlotTaken ∧ Reachable idHash oneNine ∧
    intersection idHash lastSlotTaken oneNine = .ok oneSeven ∧
    ((∀ k, isLive oneSeven k = true ↔ (isLive lastSlotTaken k = true ∧ isLive oneNine k = true)) ∧
      (∀ k, isLive oneSeven k = true →
        ∃ v, indexConst idHash oneSeven k = .ok v ∧ indexConst idHash lastSlotTaken k = .ok v) ∧
      oneSeven.size = lastSlotTaken.table.countP (fun e => e.live && isLive oneNine e.key)) :=
  ⟨reachable_lastSlotTaken,
   Reachable.insert Reachable.fresh
     (rfl : HashDictionary.insert idHash HashDictionary.new 1 9 = .ok oneNine),
   rfl,
   (intersection_live_pairs idHash reachable_lastSlotTaken
     (Reachable.insert Reachable.fresh
       (rfl : HashDictionary.insert idHash HashDictionary.new 1 9 = .ok oneNine))).1
     oneSeven rfl⟩

/-- C8: for every reachable table `T`, whatever its capacity and Tombstones,
`T && T` returns a table `R` and `R == T` returns true. -/
theorem intersection_self_equals (stdHash : K → Nat) {T : HashDictionary K V}
    (hT : Reachable stdHash T) :
    ∃ R, intersection stdHash T T = .ok R ∧ equals stdHash R T = .ok true := by
  have hI := hT.inv stdHash
  have hmem : ∀ e ∈ T.table, e.live = true → Maps T e.key e.value :=
    fun e he hl => (maps_iff_mem T e.key e.value).2 ⟨e, he, hl, rfl, rfl⟩
  obtain ⟨R, hR⟩ := intersectionLoop_ok stdHash T T.table HashDictionary.new
    (inv_new stdHash) noTomb_new
    (fun e he hl => ⟨true, (hI.lookup_of_maps stdHash (hmem e he hl)).1⟩)
  obtain ⟨hIR, _, hcnt, hmaps⟩ := intersectionLoop_spec stdHash hI T.table
    HashDictionary.new R (inv_new stdHash) noTomb_new (hI.pairwise stdHash)
    (fun e _ _ hk => by obtain ⟨v, hm⟩ := hk; exact not_maps_new _ _ hm) hR
  refine ⟨R, hR, ?_⟩
  have hcount : R.elementCount = T.elementCount := by
    rw [hcnt, hI.count_live]
    show 0 + _ = _
    rw [Nat.zero_add]
    apply List.countP_congr
    intro e he
    constructor
    · intro h
      simp only [Bool.and_eq_true] at h
      exact h.1
    · intro hl
      simp only [Bool.and_eq_true]
      exact ⟨hl, (isLive_iff T e.key).2 ⟨e.value, hmem e he hl⟩⟩
  unfold equals
  simp only [hcount, ne_eq, not_true_eq_false, if_false]
  apply equalsLoop_true stdHash hI
  intro e he hl
  have hm : Maps R e.key e.value := (maps_iff_mem R e.key e.value).2 ⟨e, he, hl, rfl, rfl⟩
  rcases (hmaps e.key e.value).1 hm with hm0 | ⟨e1, he1, hl1, hk1, hv1, _⟩
  · exact absurd hm0 (not_maps_new _ _)
  · exact (maps_iff_mem T e.key e.value).2 ⟨e1, he1, hl1, hk1, hv1⟩

/-- C8 at a table with fifteen Tombstones and one Live key. -/
theorem intersection_self_equals_witness :
    Reachable idHash lastSlotTaken ∧
    ∃ R, intersection idHash lastSlotTaken lastSlotTaken = .ok R ∧
      equals idHash R lastSlotTaken = .ok true :=
  ⟨reachable_lastSlotTaken, intersection_self_equals idHash reachable_lastSlotTaken⟩

/-- C9: a freshly constructed table has size 0 and contains no key; after
`clear()` every table has size 0, capacity 16, and compares equal to a freshly
constructed table. -/
theorem fresh_and_clear (stdHash : K → Nat) :
    (HashDictionary.new : HashDictionary K V).size = 0 ∧
    (∀ k, contains stdHash (HashDictionary.new : HashDictionary K V) k = .ok false) ∧
    ∀ T : HashDictionary K V,
      (clear T).size = 0 ∧ (clear T).table.length = 16 ∧
      equals stdHash (clear T) HashDictionary.new = .ok true ∧
      equals stdHash HashDictionary.new (clear T) = .ok true := by
  refine ⟨rfl, contains_new stdHash, fun T => ⟨rfl, ?_, ?_, ?_⟩⟩
  · simp [clear, INITIAL_SIZE]
  · exact equals_self stdHash (inv_new stdHash)
  · exact equals_self stdHash (inv_new stdHash)

/-- C10: for a reachable table `T` and a key not Live in it, the copy compares
equal to `T`; once `insert(k, v)` on the copy returns `C1`, `C1 == T` and
`T == C1` are false and `C1` has one element more than `T`.  The copy owns its
own vector, so the original is the value `T` before and after the call. -/
theorem copy_then_insert (stdHash : K → Nat) {T : HashDictionary K V}
    (hT : Reachable stdHash T) (k : K) (v : V) (hk : isLive T k = false) :
    equals stdHash (copy T) T = .ok true ∧
    ∀ C1, insert stdHash (copy T) k v = .ok C1 →
      equals stdHash C1 T = .ok false ∧ equals stdHash T C1 = .ok false ∧
      C1.size = T.size + 1 := by
  have hI := hT.inv stdHash
  refine ⟨equals_self stdHash hI, ?_⟩
  intro C1 h
  have hc : copy T = T := rfl
  rw [hc] at h
  obtain ⟨_, _, _, hcnt, _⟩ := insert_spec stdHash hI h
  have hsz : C1.elementCount = T.elementCount + 1 :=
    hcnt ((isLive_eq_false_iff T k).1 hk)
  exact ⟨equals_of_count_ne stdHash (by omega), equals_of_count_ne stdHash (by omega), hsz⟩

/-- C10 at a table with fifteen Tombstones. -/
theorem copy_then_insert_witness :
    Reachable idHash nearlySaturated ∧ isLive nearlySaturated 1 = false ∧
    insert idHash (copy nearlySaturated) 1 7 = .ok lastSlotTaken ∧
    equals idHash (copy nearlySaturated) nearlySaturated = .ok true ∧
    equals idHash lastSlotTaken nearlySaturated = .ok false ∧
    equals idHash nearlySaturated lastSlotTaken = .ok false ∧
    lastSlotTaken.size = nearlySaturated.size + 1 :=
  ⟨reachable_nearlySaturated, rfl, rfl,
   (copy_then_insert idHash reachable_nearlySaturated 1 7 rfl).1,
   (copy_then_insert idHash reachable_nearlySaturated 1 7 rfl).2 lastSlotTaken rfl⟩

/-- C13 fails on the code: on the reachable table of sixteen Tombstones, key 2
(never inserted) and key 1 (removed) are not Live, and the read-only
`operator[]` throws `tableFull`, not `keyNotFound`. -/
theorem lookup_absent_key_saturated :
    Reachable idHash saturated ∧
    isLive saturated 2 = false ∧ indexConst idHash saturated 2 = .error .tableFull ∧
    isLive saturated 1 = false ∧ indexConst idHash saturated 1 = .error .tableFull :=
  ⟨reachable_saturated, rfl, rfl, rfl, rfl⟩

/-- C14 fails on the code: on the reachable table of sixteen Tombstones, key 2
is not Live and the mutable `operator[]` throws `tableFull` instead of
inserting `(2, 0)`; the size stays 0. -/
theorem index_absent_key_saturated :
    Reachable idHash saturated ∧ isLive saturated 2 = false ∧ saturated.size = 0 ∧
    index idHash saturated 2 = .error .tableFull :=
  ⟨reachable_saturated, rfl, rfl, rfl⟩

/-- C15: on a reachable table, `insert(k, v)` (with or without a resize) and
`remove(k)`, when they return, leave unchanged whether another key `k1` is Live
and the value stored for it. -/
theorem other_keys_untouched (stdHash : K → Nat) {d : HashDictionary K V}
    (hr : Reachable stdHash d) (k k1 : K) (hne : k1 ≠ k) :
    (∀ v d1, insert stdHash d k v = .ok d1 →
      isLive d1 k1 = isLive d k1 ∧ ∀ w, Maps d1 k1 w ↔ Maps d k1 w) ∧
    (∀ d1 b, remove stdHash d k = .ok (d1, b) →
      isLive d1 k1 = isLive d k1 ∧ ∀ w, Maps d1 k1 w ↔ Maps d k1 w) := by
  have hI := hr.inv stdHash
  have hlive : ∀ d1 : HashDictionary K V, (∀ w, Maps d1 k1 w ↔ Maps d k1 w) →
      isLive d1 k1 = isLive d k1 := by
    intro d1 hm
    rw [Bool.eq_iff_iff, isLive_iff, isLive_iff]
    exact ⟨fun ⟨w, h⟩ => ⟨w, (hm w).1 h⟩, fun ⟨w, h⟩ => ⟨w, (hm w).2 h⟩⟩
  constructor
  · intro v d1 h
    obtain ⟨_, hmaps, _⟩ := insert_spec stdHash hI h
    have hm : ∀ w, Maps d1 k1 w ↔ Maps d k1 w := by
      intro w
      rw [hmaps]
      constructor
      · rintro (⟨hk, _⟩ | ⟨_, hm⟩)
        · exact absurd hk hne
        · exact hm
      · exact fun hm => Or.inr ⟨hne, hm⟩
    exact ⟨hlive d1 hm, hm⟩
  · intro d1 b h
    obtain ⟨_, _, ht, hf⟩ := remove_spec stdHash hI h
    have hm : ∀ w, Maps d1 k1 w ↔ Maps d k1 w := by
      intro w
      cases b with
      | true =>
        obtain ⟨_, _, hmaps⟩ := ht rfl
        rw [hmaps]
        exact ⟨fun h => h.2, fun h => ⟨hne, h⟩⟩
      | false => rw [(hf rfl).1]
    exact ⟨hlive d1 hm, hm⟩

/-- C15 at two keys of the same bucket: removing key 1, and inserting it with a
resize, keep `17 ↦ 1`, which sits later in the probe chain of key 1. -/
theorem other_keys_untouched_witness :
    ∃ d, insertAll idHash HashDictionary.new elevenInserts = .ok d ∧ Reachable idHash d ∧
      (∃ d1, remove idHash d 1 = .ok (d1, true) ∧
        isLive d1 17 = isLive d 17 ∧ ∀ w, Maps d1 17 w ↔ Maps d 17 w) ∧
      (∃ d1, insert idHash d 1 12 = .ok d1 ∧ d1.table.length = 32 ∧
        isLive d1 17 = isLive d 17 ∧ ∀ w, Maps d1 17 w ↔ Maps d 17 w) := by
  have hr : ∀ d, insertAll idHash HashDictionary.new elevenInserts = .ok d →
      Reachable idHash d :=
    fun d h => insertAll_reachable idHash elevenInserts _ d Reachable.fresh h
  exact ⟨_, rfl, hr _ rfl,
    ⟨_, rfl, (other_keys_untouched idHash (hr _ rfl) 1 17 (by decide)).2 _ _ rfl⟩,
    ⟨_, rfl, rfl, (other_keys_untouched idHash (hr _ rfl) 1 17 (by decide)).1 _ _ rfl⟩⟩

/-- C16 (invariant I3): in every reachable table a key is Live in at most one
slot. -/
theorem live_key_unique (stdHash : K → Nat) {d : HashDictionary K V}
    (hr : Reachable stdHash d) :
    (∀ k, d.table.countP (fun e => e.live && decide (e.key = k)) ≤ 1) ∧
    ∀ p q, p < d.table.length → q < d.table.length → (d.slot p).live = true →
      (d.slot q).live = true → (d.slot p).key = (d.slot q).key → p = q :=
  ⟨fun k => countP_key_le_one k d.table ((hr.inv stdHash).pairwise stdHash),
   fun _ _ hp hq hlp hlq hk => (hr.inv stdHash).unique stdHash hp hq hlp hlq hk⟩

/-- C16 at a table with fifteen Tombstones of key 1 and one Live slot of key 1. -/
theorem live_key_unique_witness :
    Reachable idHash lastSlotTaken ∧
    lastSlotTaken.table.countP (fun e => e.live && decide (e.key = 1)) ≤ 1 :=
  ⟨reachable_lastSlotTaken, (live_key_unique idHash reachable_lastSlotTaken).1 1⟩

/-- C17 (invariant I1): in every reachable table `size()` is the number of
slots that are occupied and not deleted. -/
theorem size_counts_live_slots (stdHash : K → Nat) {d : HashDictionary K V}
    (hr : Reachable stdHash d) :
    d.size = d.table.countP (fun e => e.isOccupied && !e.isDeleted) :=
  (hr.inv stdHash).count_live

/-- C17 at a table with fifteen Tombstones and one Live slot. -/
theorem size_counts_live_slots_witness :
    Reachable idHash lastSlotTaken ∧
    lastSlotTaken.size = lastSlotTaken.table.countP (fun e => e.isOccupied && !e.isDeleted) :=
  ⟨reachable_lastSlotTaken, size_counts_live_slots idHash reachable_lastSlotTaken⟩

/-- C18 (invariant I2): on a reachable table, once `insert` or the mutable
`operator[]` returns, `4 * size < 3 * capacity` and the capacity is `16 * 2^n`;
an `insert` that resizes doubles the capacity, one that does not keeps it; and
the calls of `insert` made by `resize` never resize (they are calls of
`place`). -/
theorem load_factor_after_insert (stdHash : K → Nat) {d : HashDictionary K V}
    (hr : Reachable stdHash d) (key : K) :
    (∀ value d1, insert stdHash d key value = .ok d1 →
      4 * d1.size < 3 * d1.table.length ∧ (∃ n, d1.table.length = 16 * 2 ^ n) ∧
      d1.table.length = (if needsResize d then d.table.length * 2 else d.table.length)) ∧
    (∀ d1 pos, index stdHash d key = .ok (d1, pos) →
      4 * d1.size < 3 * d1.table.length ∧ ∃ n, d1.table.length = 16 * 2 ^ n) ∧
    (∀ n, resizeWith (insertFuel stdHash (n + 1)) d = resizeWith (place stdHash) d) := by
  refine ⟨?_, ?_, fun n => resizeWith_fuel stdHash n d (hr.inv stdHash).size_pos⟩
  · intro value d1 h
    obtain ⟨h1, h2⟩ := (Reachable.insert hr h).load stdHash
    exact ⟨h2, h1, (insert_length stdHash (hr.inv stdHash) h).1⟩
  · intro d1 pos h
    obtain ⟨h1, h2⟩ := (Reachable.index hr h).load stdHash
    exact ⟨h2, h1⟩

/-- C18 at a table with eleven elements in sixteen slots: the twelfth `insert`
resizes to 32 slots. -/
theorem load_factor_after_insert_witness :
    ∃ d, insertAll idHash HashDictionary.new elevenInserts = .ok d ∧ Reachable idHash d ∧
      needsResize d = true ∧ d.table.length = 16 ∧
      ∃ d1, insert idHash d 177 11 = .ok d1 ∧
        4 * d1.size < 3 * d1.table.length ∧ (∃ n, d1.table.length = 16 * 2 ^ n) ∧
        d1.table.length = (if needsResize d then d.table.length * 2 else d.table.length) := by
  have hr : ∀ d, insertAll idHash HashDictionary.new elevenInserts = .ok d →
      Reachable idHash d :=
    fun d h => insertAll_reachable idHash elevenInserts _ d Reachable.fresh h
  exact ⟨_, rfl, hr _ rfl, rfl, rfl, _, rfl,
    (load_factor_after_insert idHash (hr _ rfl) 177).1 11 _ rfl⟩

/-- C19: on every table with at least one slot, `findPosition` ends within
`table.size()` iterations; when it returns `q`, `q` is the first slot of the
probe order `hash(key)`, `+1`, … (wrapping) that passes the exit test, that
slot is Empty or Live with `key`, and it is not a Tombstone; hence `insert`
without a resize, and `remove`, leave every Tombstone as it is. -/
theorem findPosition_first_exit (stdHash : K → Nat) (d : HashDictionary K V) (key : K)
    (hlen : 0 < d.table.length) :
    findPosition stdHash d key ≠ .error .outOfFuel ∧
    (∀ q, findPosition stdHash d key = .ok q →
      (∃ i, i < d.table.length ∧
        q = (HashDictionary.hash stdHash d key + i) % d.table.length ∧
        ∀ j, j < i →
          stopAt (d.slot ((HashDictionary.hash stdHash d key + j) % d.table.length)) key
            = false) ∧
      ((d.slot q).isOccupied = false ∨ ((d.slot q).live = true ∧ (d.slot q).key = key)) ∧
      (d.slot q).tomb = false) ∧
    (∀ value d1, insert stdHash d key value = .ok d1 → needsResize d = false →
      ∀ p, (d.slot p).tomb = true → d1.slot p = d.slot p) ∧
    (∀ d1 b, remove stdHash d key = .ok (d1, b) →
      ∀ p, (d.slot p).tomb = true → d1.slot p = d.slot p) := by
  refine ⟨findPosition_fuel stdHash d key hlen, ?_, ?_, ?_⟩
  · intro q h
    have hs := (stopAt_iff _ _).1 (findPosition_stop stdHash d key q h)
    refine ⟨findPosition_offset stdHash d key hlen q h, hs, ?_⟩
    unfold Entry.tomb
    rcases hs with ho | ⟨hl, _⟩
    · simp [ho]
    · simp [live_isDeleted hl]
  · intro value d1 h hres p ht
    rw [insert_eq stdHash d key value hlen, hres] at h
    simp only [Bool.false_eq_true, if_false] at h
    exact place_tomb stdHash h p ht
  · intro d1 b h p ht
    exact remove_tomb stdHash h p ht

/-- C19 at the table with fifteen Tombstones: the probe for key 1 starts at
slot 1, skips the fifteen Tombstones, wraps and returns the Empty slot 0. -/
theorem findPosition_first_exit_witness :
    0 < nearlySaturated.table.length ∧
    findPosition idHash nearlySaturated 1 = .ok 0 ∧
    (∃ i, i < nearlySaturated.table.length ∧
        0 = (HashDictionary.hash idHash nearlySaturated 1 + i) % nearlySaturated.table.length ∧
        ∀ j, j < i →
          stopAt (nearlySaturated.slot
            ((HashDictionary.hash idHash nearlySaturated 1 + j) % nearlySaturated.table.length)) 1
            = false) ∧
    (nearlySaturated.slot 0).tomb = false :=
  ⟨by decide, rfl,
   ((findPosition_first_exit idHash nearlySaturated 1 (by decide)).2.1 0 rfl).1,
   ((findPosition_first_exit idHash nearlySaturated 1 (by decide)).2.1 0 rfl).2.2⟩

/-- C20: on reachable tables, `A == B` returns true exactly when `A` and `B`
have the same Live keys with the same values, whatever their capacities and
Tombstones; and when `A == B` returns true, so does `B == A`. -/
theorem equals_symmetric_extensional (stdHash : K → Nat) {A B : HashDictionary K V}
    (hA : Reachable stdHash A) (hB : Reachable stdHash B) :
    (equals stdHash A B = .ok true ↔ ∀ k v, Maps A k v ↔ Maps B k v) ∧
    (equals stdHash A B = .ok true → equals stdHash B A = .ok true) := by
  refine ⟨equals_iff_same_pairs stdHash hA hB, ?_⟩
  intro h
  have h1 := (equals_iff_same_pairs stdHash hA hB).1 h
  exact (equals_iff_same_pairs stdHash hB hA).2 (fun k v => (h1 k v).symm)

/-- C20 at a table with fifteen Tombstones and a table without any, both
holding `1 ↦ 7` in different slots. -/
theorem equals_symmetric_extensional_witness :
    Reachable idHash lastSlotTaken ∧ Reachable idHash oneSeven ∧
    equals idHash lastSlotTaken oneSeven = .ok true ∧
    equals idHash oneSeven lastSlotTaken = .ok true ∧
    ∀ k v, Maps lastSlotTaken k v ↔ Maps oneSeven k v :=
  ⟨reachable_lastSlotTaken, reachable_oneSeven, rfl,
   (equals_symmetric_extensional idHash reachable_lastSlotTaken reachable_oneSeven).2 rfl,
   (equals_symmetric_extensional idHash reachable_lastSlotTaken reachable_oneSeven).1.1 rfl⟩

/-- C12 fails on the code: on the reachable table holding `"hello" ↦ -1`,
`countWordsWithMinRepetitions(1)` returns 1 (the comparison converts `-1` to
the `size_t` value `2^64 - 1`), while no Live value is at least 1 in the order
of the integers. -/
theorem count_negative_value :
    Reachable byteHash negativeWord ∧
    countWordsWithMinRepetitions negativeWord 1 = 1 ∧ countAtLeast negativeWord 1 = 0 ∧
    toSizeT (-1) = 2 ^ 64 - 1 :=
  ⟨reachable_negativeWord, rfl, rfl, by decide⟩

/-- C11: for a reachable table `T` with string keys and `int` values (sizes
that fit `size_t`, values that fit `int`), `loadFromFile` into a fresh table of
the bytes `saveToFile` writes for `T` returns a table `L` with `L == T` and
`T == L` both true, whatever the Tombstones and the capacity of `T`. -/
theorem save_load_roundtrip (strHash : List Byte → Nat)
    {T : HashDictionary (List Byte) Int} (hT : Reachable strHash T)
    (hsize : T.table.length < 2 ^ 64)
    (hfit : ∀ e ∈ T.table, e.live = true →
      e.key.length < 2 ^ 64 ∧ -2 ^ 31 ≤ e.value ∧ e.value < 2 ^ 31) :
    ∃ L, loadFromFile strHash HashDictionary.new (saveToFile T) = .ok L ∧
      equals strHash L T = .ok true ∧ equals strHash T L = .ok true := by
  obtain ⟨L, hL, hrL, _, hmaps⟩ := load_save_spec strHash hT hsize hfit HashDictionary.new
  exact ⟨L, hL, (equals_iff_same_pairs strHash hrL hT).2 hmaps,
    (equals_iff_same_pairs strHash hT hrL).2 (fun k v => (hmaps k v).symm)⟩

/-- C11 at a table with a Tombstone and a negative value. -/
theorem save_load_roundtrip_witness :
    Reachable byteHash wordsAfterRemove ∧ wordsAfterRemove.table.length < 2 ^ 64 ∧
    (∀ e ∈ wordsAfterRemove.table, e.live = true →
      e.key.length < 2 ^ 64 ∧ -2 ^ 31 ≤ e.value ∧ e.value < 2 ^ 31) ∧
    ∃ L, loadFromFile byteHash HashDictionary.new (saveToFile wordsAfterRemove) = .ok L ∧
      equals byteHash L wordsAfterRemove = .ok true ∧
      equals byteHash wordsAfterRemove L = .ok true :=
  ⟨reachable_wordsAfterRemove, by decide, by decide,
   save_load_roundtrip byteHash reachable_wordsAfterRemove (by decide) (by decide)⟩

end Claims

end Lab4
